import Mathlib

/-!
Verification of the multilayer predictive-coding networks in
`src/models.py` (classes `MultilayerPCN`, `HierarchicalPCN`, `HybridPCN`).

Tensors are modelled by a dynamically shaped type over `ℚ` (0-d scalar,
1-d vector, 2-d matrix), because the source relies on PyTorch's dynamic
shapes and broadcasting: `set_nodes` stores the unbatched memory vector
in `val_nodes[0]`, and the batch dimension spreads upward through the
layers only during relaxation, via broadcasting.  Elementwise operations
mirror PyTorch broadcasting on the shapes the source actually produces;
on shape mismatches PyTorch raises, and the development only ever states
facts about shape-consistent inputs.
-/

/-- A dynamically shaped dense tensor: 0-d, 1-d or 2-d, entries in `ℚ`. -/
inductive Tensor where
  | scalar (x : ℚ)
  | vec (v : List ℚ)
  | mat (m : List (List ℚ))
deriving DecidableEq

/-- Placeholder tensor used as the `getD` default and for the `[]`
buffers the Python code stores before they are populated. -/
def junk : Tensor := Tensor.scalar 0

/-- Dot product of two rational lists. -/
def dotL (v w : List ℚ) : ℚ := (List.zipWith (· * ·) v w).sum

/-- Transpose of a row-major matrix (used for `.t()` and for reading
columns); on well-formed matrices this is the usual transpose. -/
def transposeM (m : List (List ℚ)) : List (List ℚ) :=
  (List.range (m.headD []).length).map (fun j => m.map (fun r => r.getD j 0))

/-- Matrix-matrix product of row-major matrices. -/
def matMulM (a b : List (List ℚ)) : List (List ℚ) :=
  a.map (fun row => (transposeM b).map (fun col => dotL row col))

/-- Vector-matrix product `v @ m` (PyTorch `matmul` with a 1-d left
operand). -/
def vecMatM (v : List ℚ) (m : List (List ℚ)) : List ℚ :=
  (transposeM m).map (fun col => dotL v col)

/-- Elementwise binary operation with PyTorch-style broadcasting over
the shapes the source produces: a 1-d operand is broadcast across the
rows of a 2-d operand, a 0-d operand across everything. -/
def ewise (f : ℚ → ℚ → ℚ) : Tensor → Tensor → Tensor
  | Tensor.scalar a, Tensor.scalar b => Tensor.scalar (f a b)
  | Tensor.scalar a, Tensor.vec w => Tensor.vec (w.map (fun y => f a y))
  | Tensor.scalar a, Tensor.mat m => Tensor.mat (m.map (fun r => r.map (fun y => f a y)))
  | Tensor.vec v, Tensor.scalar b => Tensor.vec (v.map (fun x => f x b))
  | Tensor.vec v, Tensor.vec w => Tensor.vec (List.zipWith f v w)
  | Tensor.vec v, Tensor.mat m => Tensor.mat (m.map (fun r => List.zipWith f v r))
  | Tensor.mat m, Tensor.scalar b => Tensor.mat (m.map (fun r => r.map (fun x => f x b)))
  | Tensor.mat m, Tensor.vec w => Tensor.mat (m.map (fun r => List.zipWith f r w))
  | Tensor.mat m, Tensor.mat m₂ => Tensor.mat (List.zipWith (List.zipWith f) m m₂)

/-- Elementwise addition (`+`). -/
def ewAdd : Tensor → Tensor → Tensor := ewise (· + ·)

/-- Elementwise subtraction (`-`). -/
def ewSub : Tensor → Tensor → Tensor := ewise (· - ·)

/-- Elementwise (Hadamard) multiplication (`*`). -/
def ewMul : Tensor → Tensor → Tensor := ewise (· * ·)

/-- Elementwise unary map (shape preserving). -/
def tmap (f : ℚ → ℚ) : Tensor → Tensor
  | Tensor.scalar x => Tensor.scalar (f x)
  | Tensor.vec v => Tensor.vec (v.map f)
  | Tensor.mat m => Tensor.mat (m.map (fun r => r.map f))

/-- Unary minus on a tensor. -/
def tneg : Tensor → Tensor := tmap (fun x => -x)

/-- Multiplication by a Python scalar (e.g. `Dt * delta`). -/
def tscale (c : ℚ) : Tensor → Tensor := tmap (fun x => c * x)

/-- `torch.sign`, elementwise. -/
def tsign : Tensor → Tensor :=
  tmap (fun x => if 0 < x then 1 else if x < 0 then -1 else 0)

/-- `torch.matmul` on the operand ranks the source uses. -/
def tmatmul : Tensor → Tensor → Tensor
  | Tensor.vec v, Tensor.mat m => Tensor.vec (vecMatM v m)
  | Tensor.mat a, Tensor.mat b => Tensor.mat (matMulM a b)
  | Tensor.mat a, Tensor.vec v => Tensor.vec (a.map (fun row => dotL row v))
  | Tensor.vec v, Tensor.vec w => Tensor.scalar (dotL v w)
  | _, _ => junk

/-- `.t()`: transpose a 2-d tensor; on tensors of dimension < 2 PyTorch
`t()` is the identity. -/
def ttranspose : Tensor → Tensor
  | Tensor.mat m => Tensor.mat (transposeM m)
  | t => t

/-- `torch.sum(·, axis=0)`: column sums of a matrix (a 1-d result), sum
of a vector (a 0-d result). -/
def sumAxis0 : Tensor → Tensor
  | Tensor.mat m => Tensor.vec ((transposeM m).map List.sum)
  | Tensor.vec v => Tensor.scalar v.sum
  | Tensor.scalar _ => junk

/-- `fill_diagonal_(0)` on a 2-d tensor. -/
def fillDiagZero : Tensor → Tensor
  | Tensor.mat m => Tensor.mat (m.enum.map (fun p => p.2.set p.1 0))
  | t => t

/-- `nn.Linear` application `x @ W.t() + b`, with `W` of shape
`(out_features, in_features)` stored row-major; the bias is added only
when the layer was built with `bias=True`. -/
def linearApply (W : List (List ℚ)) (b : List ℚ) (use_bias : Bool) : Tensor → Tensor
  | Tensor.vec v =>
      let y := W.map (fun row => dotL row v)
      Tensor.vec (if use_bias then List.zipWith (· + ·) y b else y)
  | Tensor.mat m =>
      Tensor.mat (m.map (fun v =>
        let y := W.map (fun row => dotL row v)
        if use_bias then List.zipWith (· + ·) y b else y))
  | Tensor.scalar _ => junk

/-- A nonlinearity capability: an elementwise function and its
derivative (the interface of the `utils` nonlinearity objects). -/
structure Nonlin where
  apply : ℚ → ℚ
  deriv : ℚ → ℚ

/-- Modelled from the spec: `utils.Linear` is missing from `src/`; the
spec describes it as the identity nonlinearity with derivative ≡ 1. -/
def linearNonlin : Nonlin := ⟨fun x => x, fun _ => 1⟩

/-- Modelled from the spec: `utils.ReLU` is missing from `src/`; the
spec describes it as the rectifier with derivative `indicator(x>0)`. -/
def reluNonlin : Nonlin := ⟨fun x => max 0 x, fun x => if 0 < x then 1 else 0⟩

/-- Which subclass overrides `update_err_nodes`/`update_grads`. -/
inductive Variant where
  | hierarchical
  | hybrid
deriving DecidableEq

/-- The state of a `MultilayerPCN` model: its parameters and
configuration.  `weights` holds `layers[l].weight` of shape
`(nodes[l+1], nodes[l])`; `Wr` is used only by the hybrid variant. -/
structure MultilayerPCN where
  nodes : List ℕ
  weights : List (List (List ℚ))
  biases : List (List ℚ)
  use_bias : Bool
  memory : List ℚ
  Wr : List (List ℚ)
  variant : Variant
  Dt : ℚ
  lamb : ℚ
  nonlins : List Nonlin

/-- `self.n_layers = len(nodes)`. -/
def MultilayerPCN.n_layers (M : MultilayerPCN) : ℕ := M.nodes.length

/-- The nonlinearity of layer `l` (`self.nonlins[l]`). -/
def MultilayerPCN.nonlinAt (M : MultilayerPCN) (l : ℕ) : Nonlin :=
  M.nonlins.getD l linearNonlin

/-- Apply layer `l` (`self.layers[l]`). -/
def MultilayerPCN.layerApply (M : MultilayerPCN) (l : ℕ) (x : Tensor) : Tensor :=
  linearApply (M.weights.getD l []) (M.biases.getD l []) M.use_bias x

/-- The per-episode buffers `self.val_nodes`, `self.preds`,
`self.errs`. -/
structure PCState where
  val_nodes : List Tensor
  preds : List Tensor
  errs : List Tensor
deriving DecidableEq

/-- The prediction of layer `l` computed by `update_err_nodes`: the
(detached) memory at layer 0, plus `val_nodes[0] @ Wr.t()` for the
hybrid variant; layer `l-1` applied to the nonlinearity of
`val_nodes[l-1]` at layers `l > 0`. -/
def predOf (M : MultilayerPCN) (s : PCState) (l : ℕ) : Tensor :=
  if l = 0 then
    match M.variant with
    | Variant.hierarchical => Tensor.vec M.memory
    | Variant.hybrid =>
        ewAdd (Tensor.vec M.memory)
          (tmatmul (s.val_nodes.getD 0 junk) (Tensor.mat (transposeM M.Wr)))
  else
    M.layerApply (l - 1) (tmap (M.nonlinAt (l - 1)).apply (s.val_nodes.getD (l - 1) junk))

/-- `update_err_nodes` of `HierarchicalPCN` / `HybridPCN`: recompute
every layer's prediction, and set every error to value minus
prediction. -/
def update_err_nodes (M : MultilayerPCN) (s : PCState) : PCState :=
  let preds := (List.range M.n_layers).map (predOf M s)
  { s with
    preds := preds
    errs := (List.range M.n_layers).map (fun l =>
      ewSub (s.val_nodes.getD l junk) (preds.getD l junk)) }

/-- The forward chain computed by `set_nodes`: `val_nodes[0]` is the
detached memory; `val_nodes[l]` for `1 ≤ l ≤ L-2` is layer `l-1` applied
to the nonlinearity of `val_nodes[l-1]`. -/
def forwardVal (M : MultilayerPCN) : ℕ → Tensor
  | 0 => Tensor.vec M.memory
  | l + 1 => M.layerApply l (tmap (M.nonlinAt l).apply (forwardVal M l))

/-- `set_nodes(batch_inp)`: populate the value nodes (unbatched forward
chain from memory, then the input batch at the sensory layer) and
recompute the errors. -/
def set_nodes (M : MultilayerPCN) (batch_inp : Tensor) : PCState :=
  update_err_nodes M
    { val_nodes := (List.range (M.n_layers - 1)).map (forwardVal M) ++ [batch_inp]
      preds := List.replicate M.n_layers junk
      errs := List.replicate M.n_layers junk }

/-- `update_val_nodes(update_mask, recon)`: one explicit Euler step on
every non-sensory layer; when `recon` is set, additionally relax the
sensory layer under the mask; finally recompute the errors.  The
source's `for l in range(0, n_layers-1)` loop never reads an index it
has already written (each `delta` uses only `val_nodes[l]`, `errs[l]`
and `errs[l+1]`, and the errors are recomputed only after the loop),
and its trailing `if recon` line touches only `val_nodes[-1]`, which
the loop never writes; so the whole in-place pass is rendered as one
per-index map. -/
def update_val_nodes (M : MultilayerPCN) (update_mask : Tensor) (recon : Bool)
    (s : PCState) : PCState :=
  let newVals := (List.range M.n_layers).map (fun l =>
    if l < M.n_layers - 1 then
      let derivative := tmap (M.nonlinAt l).deriv (s.val_nodes.getD l junk)
      let penalty := if l = 0 then M.lamb else 0
      let delta := ewAdd
        (ewSub (tneg (s.errs.getD l junk)) (tscale penalty (tsign (s.val_nodes.getD l junk))))
        (ewMul derivative (tmatmul (s.errs.getD (l + 1) junk) (Tensor.mat (M.weights.getD l []))))
      ewAdd (s.val_nodes.getD l junk) (tscale M.Dt delta)
    else if recon then
      ewAdd (s.val_nodes.getD l junk)
        (tscale M.Dt (ewMul (tneg (s.errs.getD l junk)) update_mask))
    else s.val_nodes.getD l junk)
  update_err_nodes M { s with val_nodes := newVals }

/-- The gradients `update_grads` assigns to the parameters' `.grad`
fields.  `biases` is empty when bias is disabled (no `.grad` is
assigned); `Wr` is `some` only for the hybrid variant. -/
structure Grads where
  memory : Tensor
  weights : List Tensor
  biases : List Tensor
  Wr : Option Tensor
deriving DecidableEq

/-- `update_grads` of `HierarchicalPCN` / `HybridPCN`: memory gradient
`-sum(errs[0], axis=0)`; weight gradients `-errs[l+1].t() @
nonlin(val_nodes[l])`; bias gradients `-sum(errs[l+1], axis=0)` when
bias is enabled; and for the hybrid variant the recurrent gradient
`-(errs[0].t() @ val_nodes[0]).fill_diagonal_(0)`. -/
def update_grads (M : MultilayerPCN) (s : PCState) : Grads :=
  let memg := tneg (sumAxis0 (s.errs.getD 0 junk))
  let wg := (List.range (M.n_layers - 1)).map (fun l =>
    tneg (tmatmul (ttranspose (s.errs.getD (l + 1) junk))
      (tmap (M.nonlinAt l).apply (s.val_nodes.getD l junk))))
  let bg :=
    if M.use_bias then
      (List.range (M.n_layers - 1)).map (fun l => tneg (sumAxis0 (s.errs.getD (l + 1) junk)))
    else []
  match M.variant with
  | Variant.hierarchical => { memory := memg, weights := wg, biases := bg, Wr := none }
  | Variant.hybrid =>
      { memory := memg, weights := wg, biases := bg
        Wr := some (tneg (fillDiagZero
          (tmatmul (ttranspose (s.errs.getD 0 junk)) (s.val_nodes.getD 0 junk)))) }

/-- `n` iterations of `update_val_nodes` (the `for itr in range(n_iters)`
loop shared by training and testing). -/
def relaxSteps (M : MultilayerPCN) (update_mask : Tensor) (recon : Bool) :
    ℕ → PCState → PCState
  | 0, s => s
  | n + 1, s => relaxSteps M update_mask recon n (update_val_nodes M update_mask recon s)

/-- `train_pc_generative(batch_inp, n_iters, update_mask)`: initialize,
set nodes, relax `n_iters` times with `recon=False`, compute gradients.
Returns the final state together with the assigned gradients. -/
def train_pc_generative (M : MultilayerPCN) (batch_inp : Tensor) (n_iters : ℕ)
    (update_mask : Tensor) : PCState × Grads :=
  let s := relaxSteps M update_mask false n_iters (set_nodes M batch_inp)
  (s, update_grads M s)

/-- `test_pc_generative(corrupt_inp, n_iters, update_mask, sensory)`:
initialize, set nodes, relax `n_iters` times with `recon=True`, return
the sensory value nodes (`sensory=True`) or the sensory prediction. -/
def test_pc_generative (M : MultilayerPCN) (corrupt_inp : Tensor) (n_iters : ℕ)
    (update_mask : Tensor) (sensory : Bool) : Tensor :=
  let s := relaxSteps M update_mask true n_iters (set_nodes M corrupt_inp)
  if sensory then s.val_nodes.getD (M.n_layers - 1) junk
  else s.preds.getD (M.n_layers - 1) junk

/-! ### The constructor `MultilayerPCN.__init__`

The constructor's nonlinearity handling is
`if nonlin == 'Tanh': nonlin = utils.Tanh()
 elif nonlin == 'ReLU': nonlin = utils.ReLU()`
with no `else` branch and no `raise` statement anywhere in `__init__`
(contrast `RecPCN.__init__`, which raises `ValueError` on an unknown
mode), so any other argument is stored unchanged in `self.nonlins`.
Exceptions are modelled as `Except.error`; since `__init__` cannot
raise, no branch below produces an error. -/

/-- What `__init__` stores in `self.nonlins`: the two recognized names
are replaced by nonlinearity objects, anything else is kept as
passed. -/
inductive NonlinSel where
  | tanh
  | reLU
  | other (nonlin : String)
deriving DecidableEq

/-- The deterministic fields `__init__` assigns (the `nn.Linear` weight
values are randomly initialized by the framework and abstracted to
their shapes `(out_features, in_features)`). -/
structure MLConfig where
  n_layers : ℕ
  layer_shapes : List (ℕ × ℕ)
  mem_dim : ℕ
  memory : List ℚ
  Dt : ℚ
  nonlins : List NonlinSel
  use_bias : Bool
  lamb : ℚ
deriving DecidableEq

/-- `MultilayerPCN.__init__(nodes, nonlin, Dt, lamb, use_bias)`. -/
def mkMultilayerPCN (nodes : List ℕ) (nonlin : String) (Dt : ℚ) (lamb : ℚ)
    (use_bias : Bool) : Except String MLConfig :=
  let n_layers := nodes.length
  let sel :=
    if nonlin = "Tanh" then NonlinSel.tanh
    else if nonlin = "ReLU" then NonlinSel.reLU
    else NonlinSel.other nonlin
  Except.ok
    { n_layers := n_layers
      layer_shapes := (List.range (n_layers - 1)).map (fun l =>
        (nodes.getD (l + 1) 0, nodes.getD l 0))
      mem_dim := nodes.getD 0 0
      memory := List.replicate (nodes.getD 0 0) 0
      Dt := Dt
      nonlins := List.replicate (n_layers - 1) sel
      use_bias := use_bias
      lamb := lamb }

/-! ### Shape predicates -/

/-- `m` is a well-formed row-major matrix with `B` rows of length `n`. -/
def IsMat (B n : ℕ) (m : List (List ℚ)) : Prop :=
  m.length = B ∧ ∀ r ∈ m, r.length = n

instance (B n : ℕ) (m : List (List ℚ)) : Decidable (IsMat B n m) := by
  unfold IsMat; infer_instance

/-- `t` is a 1-d tensor of length `n`. -/
def ShV (n : ℕ) (t : Tensor) : Prop := ∃ v, t = Tensor.vec v ∧ v.length = n

/-- `t` is a 2-d tensor of shape `(B, n)`. -/
def ShM (B n : ℕ) (t : Tensor) : Prop := ∃ m, t = Tensor.mat m ∧ IsMat B n m

instance (n : ℕ) (t : Tensor) : Decidable (ShV n t) :=
  match t with
  | Tensor.vec v =>
      if h : v.length = n then isTrue ⟨v, rfl, h⟩
      else isFalse (by rintro ⟨w, hw, hl⟩; cases hw; exact h hl)
  | Tensor.scalar _ => isFalse (by rintro ⟨w, hw, _⟩; cases hw)
  | Tensor.mat _ => isFalse (by rintro ⟨w, hw, _⟩; cases hw)

instance (B n : ℕ) (t : Tensor) : Decidable (ShM B n t) :=
  match t with
  | Tensor.mat m =>
      if h : IsMat B n m then isTrue ⟨m, rfl, h⟩
      else isFalse (by rintro ⟨w, hw, hl⟩; cases hw; exact h hl)
  | Tensor.scalar _ => isFalse (by rintro ⟨w, hw, _⟩; cases hw)
  | Tensor.vec _ => isFalse (by rintro ⟨w, hw, _⟩; cases hw)

/-- `t` is either a 1-d tensor of length `n` or a 2-d tensor of shape
`(B, n)` — the two shapes a layer's buffers take while the batch
dimension spreads through the network. -/
def Sh (B n : ℕ) (t : Tensor) : Prop := ShV n t ∨ ShM B n t

/-- `P` holds of every entry of the tensor. -/
def EntriesP (P : ℚ → Prop) : Tensor → Prop
  | Tensor.scalar x => P x
  | Tensor.vec v => ∀ x ∈ v, P x
  | Tensor.mat m => ∀ r ∈ m, ∀ x ∈ r, P x

/-- Every entry of `t` is zero. -/
def IsZeroT (t : Tensor) : Prop := EntriesP (fun x => x = 0) t

instance : DecidablePred IsZeroT := fun t =>
  match t with
  | Tensor.scalar x => inferInstanceAs (Decidable (x = 0))
  | Tensor.vec v => inferInstanceAs (Decidable (∀ x ∈ v, x = 0))
  | Tensor.mat m => inferInstanceAs (Decidable (∀ r ∈ m, ∀ x ∈ r, x = 0))

/-- Well-formedness of a model's parameter shapes: `L ≥ 2` layers of
positive width, weights of shape `(nodes[l+1], nodes[l])`, biases of
length `nodes[l+1]` when enabled, memory of length `nodes[0]`, and for
the hybrid variant a square `Wr` of size `nodes[0]`. -/
def WFModel (M : MultilayerPCN) : Prop :=
  2 ≤ M.n_layers ∧
  (∀ l < M.n_layers, 0 < M.nodes.getD l 0) ∧
  M.weights.length = M.n_layers - 1 ∧
  (∀ l < M.n_layers - 1,
    IsMat (M.nodes.getD (l + 1) 0) (M.nodes.getD l 0) (M.weights.getD l [])) ∧
  (M.use_bias = true →
    ∀ l < M.n_layers - 1, (M.biases.getD l []).length = M.nodes.getD (l + 1) 0) ∧
  M.memory.length = M.nodes.getD 0 0 ∧
  (M.variant = Variant.hybrid → IsMat (M.nodes.getD 0 0) (M.nodes.getD 0 0) M.Wr)

instance (M : MultilayerPCN) : Decidable (WFModel M) := by
  unfold WFModel; infer_instance

/-- The mixed-batching invariant of a relaxation episode: the buffers
have length `L`; below layer `j` the value and error nodes are still
unbatched vectors; from layer `j` upward they carry the batch
dimension `B`. -/
def MixedState (M : MultilayerPCN) (B j : ℕ) (s : PCState) : Prop :=
  s.val_nodes.length = M.n_layers ∧ s.errs.length = M.n_layers ∧
  (∀ l < M.n_layers,
    if l < j then
      ShV (M.nodes.getD l 0) (s.val_nodes.getD l junk) ∧
      ShV (M.nodes.getD l 0) (s.errs.getD l junk)
    else
      ShM B (M.nodes.getD l 0) (s.val_nodes.getD l junk) ∧
      ShM B (M.nodes.getD l 0) (s.errs.getD l junk))

instance (M : MultilayerPCN) (B j : ℕ) (s : PCState) : Decidable (MixedState M B j s) := by
  unfold MixedState; infer_instance

/-! ### Entry accessors (used to state gradient formulas indexwise) -/

/-- Entry `(b, j)` of a 2-d tensor (and `0` outside it). -/
def entryM (t : Tensor) (b j : ℕ) : ℚ :=
  match t with
  | Tensor.mat m => (m.getD b []).getD j 0
  | _ => 0

/-- Entry `j` of a 1-d tensor (and `0` outside it). -/
def entryV (t : Tensor) (j : ℕ) : ℚ :=
  match t with
  | Tensor.vec v => v.getD j 0
  | _ => 0

/-! ### Concrete instances used to instantiate the theorems -/

/-- A two-layer hierarchical model with widths `[2, 1]`, zero weights,
zero memory, no bias, identity nonlinearity. -/
def mdlA : MultilayerPCN :=
  { nodes := [2, 1], weights := [[[0, 0]]], biases := [[0]], use_bias := false
    memory := [0, 0], Wr := [], variant := Variant.hierarchical
    Dt := 1, lamb := 0, nonlins := [linearNonlin] }

/-- An all-zero batch of two sensory vectors for `mdlA`. -/
def inpA : Tensor := Tensor.mat [[0], [0]]

/-- A two-layer hybrid model with widths `[1, 1]`, bias enabled and a
rectifier nonlinearity. -/
def mdlB : MultilayerPCN :=
  { nodes := [1, 1], weights := [[[1]]], biases := [[0]], use_bias := true
    memory := [2], Wr := [[3]], variant := Variant.hybrid
    Dt := 1, lamb := 1, nonlins := [reluNonlin] }

/-- A one-element batch for `mdlB`. -/
def inpB : Tensor := Tensor.mat [[5]]

/-- A two-layer hierarchical model with widths `[1, 1]` and bias
enabled. -/
def mdlC : MultilayerPCN :=
  { nodes := [1, 1], weights := [[[2]]], biases := [[1]], use_bias := true
    memory := [1], Wr := [], variant := Variant.hierarchical
    Dt := 1, lamb := 0, nonlins := [reluNonlin] }

/-- An arbitrary fully-batched state for the two-layer models (batch
size 1, widths `[1, 1]`). -/
def stB : PCState :=
  { val_nodes := [Tensor.mat [[2]], Tensor.mat [[7]]]
    preds := [junk, junk]
    errs := [Tensor.mat [[3]], Tensor.mat [[5]]] }

/-! ## Basic lemmas -/

theorem getD_map_range {α : Type} (f : ℕ → α) (d : α) {n l : ℕ} (h : l < n) :
    ((List.range n).map f).getD l d = f l := by
  rw [List.getD_eq_getElem?_getD, List.getElem?_map, List.getElem?_range h]
  rfl

theorem update_err_nodes_val_nodes (M : MultilayerPCN) (s : PCState) :
    (update_err_nodes M s).val_nodes = s.val_nodes := rfl

theorem getD_map_in {α β : Type} (f : α → β) (xs : List α) (d₁ : α) (d₂ : β) {i : ℕ}
    (h : i < xs.length) :
    (xs.map f).getD i d₂ = f (xs.getD i d₁) := by
  rw [List.getD_eq_getElem?_getD, List.getElem?_map, List.getElem?_eq_getElem h,
    List.getD_eq_getElem?_getD, List.getElem?_eq_getElem h]
  rfl

theorem getD_mem_of_lt {α : Type} (xs : List α) (d : α) {i : ℕ} (h : i < xs.length) :
    xs.getD i d ∈ xs := by
  rw [List.getD_eq_getElem?_getD, List.getElem?_eq_getElem h]
  exact List.getElem_mem h

theorem enum_getD {α : Type} (xs : List α) (d : α) {i : ℕ} (h : i < xs.length) :
    xs.enum.getD i (0, d) = (i, xs.getD i d) := by
  rw [List.getD_eq_getElem?_getD, List.getElem?_eq_getElem (by simpa using h),
    List.getD_eq_getElem?_getD, List.getElem?_eq_getElem h]
  simp

theorem getD_set_self {α : Type} (xs : List α) (a d : α) {i : ℕ} (h : i < xs.length) :
    (xs.set i a).getD i d = a := by
  rw [List.getD_eq_getElem?_getD, List.getElem?_eq_getElem (by simpa using h)]
  simp

theorem headD_length {B n : ℕ} {m : List (List ℚ)} (h : IsMat B n m) (hB : 0 < B) :
    (m.headD []).length = n := by
  obtain ⟨hlen, hrow⟩ := h
  cases m with
  | nil => subst hlen; exact absurd hB (by simp)
  | cons r t => exact hrow r (List.mem_cons_self r t)

theorem transposeM_IsMat {B n : ℕ} {m : List (List ℚ)} (h : IsMat B n m) (hB : 0 < B) :
    IsMat n B (transposeM m) := by
  refine ⟨?_, ?_⟩
  · rw [transposeM, List.length_map, List.length_range, headD_length h hB]
  · intro r hr
    simp only [transposeM, List.mem_map, List.mem_range] at hr
    obtain ⟨j, _, rfl⟩ := hr
    simp [h.1]

theorem transposeM_getD {B n : ℕ} {m : List (List ℚ)} (h : IsMat B n m) (hB : 0 < B)
    {j : ℕ} (hj : j < n) :
    (transposeM m).getD j [] = m.map (fun r => r.getD j 0) := by
  unfold transposeM
  rw [getD_map_range _ _ (by rw [headD_length h hB]; exact hj)]

theorem matMulM_IsMat {a b c : ℕ} {X Y : List (List ℚ)} (hX : IsMat a b X)
    (hY : IsMat b c Y) (hb : 0 < b) : IsMat a c (matMulM X Y) := by
  refine ⟨?_, ?_⟩
  · simp [matMulM, hX.1]
  · intro r hr
    simp only [matMulM, List.mem_map] at hr
    obtain ⟨row, _, rfl⟩ := hr
    simp [(transposeM_IsMat hY hb).1]

theorem sum_map_eq_range_sum {α : Type} (xs : List α) (f : α → ℚ) (d : α) :
    (xs.map f).sum = ∑ i ∈ Finset.range xs.length, f (xs.getD i d) := by
  induction xs with
  | nil => simp
  | cons a t ih =>
      rw [List.map_cons, List.sum_cons, List.length_cons, Finset.sum_range_succ', ih]
      simp [List.getD]
      ring

theorem dotL_map_map {α β : Type} (xs : List α) (ys : List β) (g : α → ℚ) (g₂ : β → ℚ)
    (dx : α) (dy : β) (hlen : xs.length = ys.length) :
    dotL (xs.map g) (ys.map g₂) =
      ∑ b ∈ Finset.range xs.length, g (xs.getD b dx) * g₂ (ys.getD b dy) := by
  induction xs generalizing ys with
  | nil => simp [dotL]
  | cons a t ih =>
      cases ys with
      | nil => simp at hlen
      | cons b u =>
          have hstep : dotL ((a :: t).map g) ((b :: u).map g₂) =
              g a * g₂ b + dotL (t.map g) (u.map g₂) := by
            simp [dotL]
          rw [hstep, ih u (by simpa using hlen), List.length_cons, Finset.sum_range_succ']
          simp [List.getD]
          ring

theorem update_val_nodes_val (M : MultilayerPCN) (update_mask : Tensor) (recon : Bool)
    (s : PCState) {l : ℕ} (h : l < M.n_layers - 1) :
    (update_val_nodes M update_mask recon s).val_nodes.getD l junk =
      ewAdd (s.val_nodes.getD l junk) (tscale M.Dt (ewAdd
        (ewSub (tneg (s.errs.getD l junk))
          (tscale (if l = 0 then M.lamb else 0) (tsign (s.val_nodes.getD l junk))))
        (ewMul (tmap (M.nonlinAt l).deriv (s.val_nodes.getD l junk))
          (tmatmul (s.errs.getD (l + 1) junk) (Tensor.mat (M.weights.getD l [])))))) := by
  have hl : l < M.n_layers := lt_of_lt_of_le h (Nat.sub_le _ _)
  show ((List.range M.n_layers).map _).getD l junk = _
  rw [getD_map_range _ _ hl]
  simp [h]

/-! ## Claims -/

/-- C2: one call to `update_val_nodes` changes every non-sensory
`val_nodes[l]` by exactly `Dt * delta`, where
`delta = -errs[l] - penalty*sign(val_nodes[l])
       + nonlin_deriv(val_nodes[l]) ⊙ (errs[l+1] @ W_l)`
and `penalty = lamb` at `l = 0` and `0` at every other layer. -/
theorem claim_C2 (M : MultilayerPCN) (update_mask : Tensor) (recon : Bool)
    (s : PCState) (l : ℕ) (h : l < M.n_layers - 1) :
    (update_val_nodes M update_mask recon s).val_nodes.getD l junk =
      ewAdd (s.val_nodes.getD l junk) (tscale M.Dt (ewAdd
        (ewSub (tneg (s.errs.getD l junk))
          (tscale (if l = 0 then M.lamb else 0) (tsign (s.val_nodes.getD l junk))))
        (ewMul (tmap (M.nonlinAt l).deriv (s.val_nodes.getD l junk))
          (tmatmul (s.errs.getD (l + 1) junk) (Tensor.mat (M.weights.getD l [])))))) :=
  update_val_nodes_val M update_mask recon s h

/-- Witness for C2: the update formula instantiated on the concrete
hybrid model `mdlB` at layer 0 (where the penalty is `lamb`). -/
theorem claim_C2_witness :
    0 < mdlB.n_layers - 1 ∧
    (update_val_nodes mdlB junk false stB).val_nodes.getD 0 junk =
      ewAdd (stB.val_nodes.getD 0 junk) (tscale mdlB.Dt (ewAdd
        (ewSub (tneg (stB.errs.getD 0 junk))
          (tscale (if 0 = 0 then mdlB.lamb else 0) (tsign (stB.val_nodes.getD 0 junk))))
        (ewMul (tmap (mdlB.nonlinAt 0).deriv (stB.val_nodes.getD 0 junk))
          (tmatmul (stB.errs.getD (0 + 1) junk) (Tensor.mat (mdlB.weights.getD 0 [])))))) :=
  ⟨by decide, claim_C2 mdlB junk false stB 0 (by decide)⟩

theorem update_val_nodes_mask_irrel (M : MultilayerPCN) (m₁ m₂ : Tensor) (s : PCState) :
    update_val_nodes M m₁ false s = update_val_nodes M m₂ false s := by
  simp [update_val_nodes]

theorem relaxSteps_mask_irrel (M : MultilayerPCN) (m₁ m₂ : Tensor) (n : ℕ) (s : PCState) :
    relaxSteps M m₁ false n s = relaxSteps M m₂ false n s := by
  induction n generalizing s with
  | zero => rfl
  | succ n ih =>
      show relaxSteps M m₁ false n _ = relaxSteps M m₂ false n _
      rw [update_val_nodes_mask_irrel M m₁ m₂ s]
      exact ih _

/-- C10: the `update_mask` argument has no effect during training: two
runs of `train_pc_generative` that differ only in the mask return
identical final states (value nodes, predictions, errors) and identical
parameter gradients. -/
theorem claim_C10 (M : MultilayerPCN) (batch_inp : Tensor) (n_iters : ℕ)
    (m₁ m₂ : Tensor) :
    train_pc_generative M batch_inp n_iters m₁ =
      train_pc_generative M batch_inp n_iters m₂ := by
  unfold train_pc_generative
  rw [relaxSteps_mask_irrel M m₁ m₂]

theorem relaxSteps_eq_iterate (M : MultilayerPCN) (update_mask : Tensor) (recon : Bool)
    (n : ℕ) (s : PCState) :
    relaxSteps M update_mask recon n s = (update_val_nodes M update_mask recon)^[n] s := by
  induction n generalizing s with
  | zero => rfl
  | succ n ih =>
      show relaxSteps M update_mask recon n _ = _
      rw [ih, Function.iterate_succ_apply]

/-- C6: `test_pc_generative` runs the relaxation loop with `recon=True`
on every step and returns the relaxed sensory-layer value nodes when
`sensory=True`, and the sensory-layer (top-level output) prediction
when `sensory=False`. -/
theorem claim_C6 (M : MultilayerPCN) (corrupt_inp : Tensor) (n_iters : ℕ)
    (update_mask : Tensor) :
    test_pc_generative M corrupt_inp n_iters update_mask true =
      ((update_val_nodes M update_mask true)^[n_iters]
        (set_nodes M corrupt_inp)).val_nodes.getD (M.n_layers - 1) junk ∧
    test_pc_generative M corrupt_inp n_iters update_mask false =
      ((update_val_nodes M update_mask true)^[n_iters]
        (set_nodes M corrupt_inp)).preds.getD (M.n_layers - 1) junk := by
  unfold test_pc_generative
  rw [relaxSteps_eq_iterate]
  exact ⟨rfl, rfl⟩

/-- C4: for the hybrid variant, after every call to `update_grads` the
diagonal of the recurrent weight's gradient is exactly zero, for
arbitrary batch content and model parameters. -/
theorem claim_C4 (M : MultilayerPCN) (s : PCState) (B n : ℕ) (E V : List (List ℚ))
    (hvar : M.variant = Variant.hybrid)
    (hE : s.errs.getD 0 junk = Tensor.mat E)
    (hV : s.val_nodes.getD 0 junk = Tensor.mat V)
    (hEm : IsMat B n E) (hVm : IsMat B n V) (hB : 0 < B) :
    ∃ G, (update_grads M s).Wr = some (Tensor.mat G) ∧ G.length = n ∧
      ∀ i < n, (G.getD i []).getD i 0 = 0 := by
  have hP : IsMat n n (matMulM (transposeM E) V) :=
    matMulM_IsMat (transposeM_IsMat hEm hB) hVm hB
  have hWr : (update_grads M s).Wr =
      some (tneg (fillDiagZero (tmatmul (ttranspose (s.errs.getD 0 junk))
        (s.val_nodes.getD 0 junk)))) := by
    simp [update_grads, hvar]
  rw [hE, hV] at hWr
  refine ⟨((matMulM (transposeM E) V).enum.map (fun p => p.2.set p.1 0)).map
      (List.map (fun x => -x)), by rw [hWr]; rfl, ?_, ?_⟩
  · simp [hP.1]
  · intro i hi
    have hiP : i < (matMulM (transposeM E) V).length := by rw [hP.1]; exact hi
    rw [getD_map_in _ _ [] [] (by simpa using hiP),
      getD_map_in _ _ ((0 : ℕ), ([] : List ℚ)) [] (by simpa using hiP),
      enum_getD _ _ hiP]
    have hrowlen : ((matMulM (transposeM E) V).getD i []).length = n :=
      hP.2 _ (getD_mem_of_lt _ [] hiP)
    rw [getD_map_in _ _ 0 0 (by rw [List.length_set, hrowlen]; exact hi),
      getD_set_self _ _ _ (by rw [hrowlen]; exact hi)]
    simp

/-- Witness for C4: the zero-diagonal invariant applied to the concrete
hybrid model `mdlB` on the concrete batched state `stB`. -/
theorem claim_C4_witness :
    (mdlB.variant = Variant.hybrid ∧ stB.errs.getD 0 junk = Tensor.mat [[3]] ∧
      stB.val_nodes.getD 0 junk = Tensor.mat [[2]] ∧
      IsMat 1 1 [[3]] ∧ IsMat 1 1 [[2]] ∧ 0 < 1) ∧
    ∃ G, (update_grads mdlB stB).Wr = some (Tensor.mat G) ∧ G.length = 1 ∧
      ∀ i < 1, (G.getD i []).getD i 0 = 0 :=
  ⟨⟨rfl, rfl, rfl, by decide, by decide, by decide⟩,
    claim_C4 mdlB stB 1 1 [[3]] [[2]] rfl rfl rfl (by decide) (by decide) (by decide)⟩

theorem sumAxis0_entry {B n : ℕ} {E : List (List ℚ)} (h : IsMat B n E) (hB : 0 < B)
    {j : ℕ} (hj : j < n) :
    entryV (sumAxis0 (Tensor.mat E)) j = ∑ b ∈ Finset.range B, entryM (Tensor.mat E) b j := by
  show ((transposeM E).map List.sum).getD j 0 = _
  rw [getD_map_in _ _ [] 0 (by rw [(transposeM_IsMat h hB).1]; exact hj),
    transposeM_getD h hB hj, sum_map_eq_range_sum _ _ [], h.1]
  rfl

theorem neg_sumAxis0_entry {B n : ℕ} {E : List (List ℚ)} (h : IsMat B n E) (hB : 0 < B)
    {j : ℕ} (hj : j < n) :
    entryV (tneg (sumAxis0 (Tensor.mat E))) j =
      -(∑ b ∈ Finset.range B, entryM (Tensor.mat E) b j) := by
  have h1 := sumAxis0_entry h hB hj
  have hw : ((transposeM E).map List.sum).length = n := by
    rw [List.length_map, (transposeM_IsMat h hB).1]
  show (((transposeM E).map List.sum).map (fun x => -x)).getD j 0 = _
  rw [getD_map_in _ _ 0 0 (by rw [hw]; exact hj),
    show ((transposeM E).map List.sum).getD j 0 = entryV (sumAxis0 (Tensor.mat E)) j from rfl,
    h1]

theorem neg_matmulT_entry {B p q : ℕ} {E V : List (List ℚ)} (f : ℚ → ℚ)
    (hEm : IsMat B p E) (hVm : IsMat B q V) (hB : 0 < B)
    {i j : ℕ} (hi : i < p) (hj : j < q) :
    entryM (tneg (tmatmul (ttranspose (Tensor.mat E)) (tmap f (Tensor.mat V)))) i j =
      -(∑ b ∈ Finset.range B,
          entryM (Tensor.mat E) b i * f (entryM (Tensor.mat V) b j)) := by
  have hV₂ : IsMat B q (V.map (List.map f)) := by
    refine ⟨by rw [List.length_map, hVm.1], ?_⟩
    intro r hr
    simp only [List.mem_map] at hr
    obtain ⟨r₀, hr₀, rfl⟩ := hr
    rw [List.length_map]
    exact hVm.2 r₀ hr₀
  have hTE : IsMat p B (transposeM E) := transposeM_IsMat hEm hB
  have hProd : IsMat p q (matMulM (transposeM E) (V.map (List.map f))) :=
    matMulM_IsMat hTE hV₂ hB
  show (((matMulM (transposeM E) (V.map (List.map f))).map
      (List.map (fun x => -x))).getD i []).getD j 0 = _
  rw [getD_map_in _ _ [] [] (by rw [hProd.1]; exact hi)]
  rw [getD_map_in _ _ 0 0 (by
    rw [hProd.2 _ (getD_mem_of_lt _ [] (by rw [hProd.1]; exact hi))]; exact hj)]
  show -(((matMulM (transposeM E) (V.map (List.map f))).getD i []).getD j 0) = _
  rw [show (matMulM (transposeM E) (V.map (List.map f))).getD i [] =
      ((transposeM E).map (fun row => (transposeM (V.map (List.map f))).map
        (fun col => dotL row col))).getD i [] from rfl]
  rw [getD_map_in _ _ [] [] (by rw [hTE.1]; exact hi)]
  rw [getD_map_in _ _ [] 0 (by rw [(transposeM_IsMat hV₂ hB).1]; exact hj)]
  rw [transposeM_getD hEm hB hi, transposeM_getD hV₂ hB hj, List.map_map]
  rw [dotL_map_map _ _ _ _ [] [] (by rw [hEm.1, hVm.1])]
  rw [hEm.1]
  congr 1
  apply Finset.sum_congr rfl
  intro b hb
  simp only [Finset.mem_range] at hb
  have hrow : (V.getD b []).length = q := hVm.2 _ (getD_mem_of_lt _ [] (by rw [hVm.1]; exact hb))
  show entryM (Tensor.mat E) b i * ((V.getD b []).map f).getD j 0 = _
  rw [getD_map_in f _ 0 0 (by rw [hrow]; exact hj)]
  rfl

/-- C3: for the hierarchical variant, after `update_grads` on a fully
batched state, the memory gradient is minus the batch sum of `errs[0]`,
each layer-`l` weight gradient has entries
`-(errs[l+1]ᵗ @ nonlin(val_nodes[l]))[i][j]
  = -Σ_b errs[l+1][b][i] * nonlin(val_nodes[l][b][j])`,
and, when bias is enabled, each layer-`l` bias gradient is minus the
batch sum of `errs[l+1]`. -/
theorem claim_C3 (M : MultilayerPCN) (s : PCState) (B : ℕ)
    (hvar : M.variant = Variant.hierarchical) (hB : 0 < B)
    (hmix : MixedState M B 0 s) :
    (∀ j < M.nodes.getD 0 0,
      entryV ((update_grads M s).memory) j =
        -(∑ b ∈ Finset.range B, entryM (s.errs.getD 0 junk) b j)) ∧
    (∀ l, l < M.n_layers - 1 → ∀ i < M.nodes.getD (l + 1) 0, ∀ j < M.nodes.getD l 0,
      entryM ((update_grads M s).weights.getD l junk) i j =
        -(∑ b ∈ Finset.range B,
            entryM (s.errs.getD (l + 1) junk) b i *
              (M.nonlinAt l).apply (entryM (s.val_nodes.getD l junk) b j))) ∧
    (M.use_bias = true → ∀ l, l < M.n_layers - 1 → ∀ i < M.nodes.getD (l + 1) 0,
      entryV ((update_grads M s).biases.getD l junk) i =
        -(∑ b ∈ Finset.range B, entryM (s.errs.getD (l + 1) junk) b i)) := by
  obtain ⟨hvlen, helen, hsh⟩ := hmix
  have shAt : ∀ l, l < M.n_layers →
      ShM B (M.nodes.getD l 0) (s.val_nodes.getD l junk) ∧
      ShM B (M.nodes.getD l 0) (s.errs.getD l junk) := by
    intro l hl
    have := hsh l hl
    rwa [if_neg (Nat.not_lt_zero l)] at this
  refine ⟨?_, ?_, ?_⟩
  · intro j hj
    have h0 : 0 < M.n_layers := by
      rcases Nat.eq_zero_or_pos M.n_layers with h | h
      · have hnil : M.nodes = [] := List.length_eq_zero.mp h
        rw [hnil] at hj
        simp [List.getD] at hj
      · exact h
    obtain ⟨E, hE, hEm⟩ := (shAt 0 h0).2
    have hmem : (update_grads M s).memory = tneg (sumAxis0 (s.errs.getD 0 junk)) := by
      simp [update_grads, hvar]
    rw [hmem, hE]
    exact neg_sumAxis0_entry hEm hB hj
  · intro l hl i hi j hj
    have hl₁ : l < M.n_layers := lt_of_lt_of_le hl (Nat.sub_le _ _)
    have hl₂ : l + 1 < M.n_layers := by omega
    obtain ⟨V, hV, hVm⟩ := (shAt l hl₁).1
    obtain ⟨E, hE, hEm⟩ := (shAt (l + 1) hl₂).2
    have hw : (update_grads M s).weights.getD l junk =
        tneg (tmatmul (ttranspose (s.errs.getD (l + 1) junk))
          (tmap (M.nonlinAt l).apply (s.val_nodes.getD l junk))) := by
      have : (update_grads M s).weights = (List.range (M.n_layers - 1)).map (fun l =>
          tneg (tmatmul (ttranspose (s.errs.getD (l + 1) junk))
            (tmap (M.nonlinAt l).apply (s.val_nodes.getD l junk)))) := by
        simp [update_grads, hvar]
      rw [this, getD_map_range _ _ hl]
    rw [hw, hE, hV]
    exact neg_matmulT_entry _ hEm hVm hB hi hj
  · intro hub l hl i hi
    have hl₂ : l + 1 < M.n_layers := by omega
    obtain ⟨E, hE, hEm⟩ := (shAt (l + 1) hl₂).2
    have hbias : (update_grads M s).biases.getD l junk =
        tneg (sumAxis0 (s.errs.getD (l + 1) junk)) := by
      have : (update_grads M s).biases = (List.range (M.n_layers - 1)).map (fun l =>
          tneg (sumAxis0 (s.errs.getD (l + 1) junk))) := by
        simp [update_grads, hvar, hub]
      rw [this, getD_map_range _ _ hl]
    rw [hbias, hE]
    exact neg_sumAxis0_entry hEm hB hi

/-- Witness for C3: the gradient formulas applied to the concrete
hierarchical model `mdlC` on the concrete batched state `stB`. -/
theorem claim_C3_witness :
    (mdlC.variant = Variant.hierarchical ∧ 0 < 1 ∧ MixedState mdlC 1 0 stB) ∧
    ((∀ j < mdlC.nodes.getD 0 0,
      entryV ((update_grads mdlC stB).memory) j =
        -(∑ b ∈ Finset.range 1, entryM (stB.errs.getD 0 junk) b j)) ∧
    (∀ l, l < mdlC.n_layers - 1 → ∀ i < mdlC.nodes.getD (l + 1) 0,
        ∀ j < mdlC.nodes.getD l 0,
      entryM ((update_grads mdlC stB).weights.getD l junk) i j =
        -(∑ b ∈ Finset.range 1,
            entryM (stB.errs.getD (l + 1) junk) b i *
              (mdlC.nonlinAt l).apply (entryM (stB.val_nodes.getD l junk) b j))) ∧
    (mdlC.use_bias = true → ∀ l, l < mdlC.n_layers - 1 →
        ∀ i < mdlC.nodes.getD (l + 1) 0,
      entryV ((update_grads mdlC stB).biases.getD l junk) i =
        -(∑ b ∈ Finset.range 1, entryM (stB.errs.getD (l + 1) junk) b i))) :=
  ⟨⟨rfl, by decide, by decide⟩, claim_C3 mdlC stB 1 rfl (by decide) (by decide)⟩

/-- Counterexample to C7 as stated: constructing a `MultilayerPCN` with
the unrecognized nonlinearity name `"Softplus"` does not raise — the
constructor returns normally (`__init__` has no `else` branch and no
`raise`). -/
theorem claim_C7_counterexample :
    (mkMultilayerPCN [2, 2] "Softplus" 1 0 false).isOk = true := rfl

/-- C7 (amended): construction with a nonlinearity name outside the
recognized set does not fail; the constructor returns normally and the
unrecognized name is stored unchanged in `nonlins` (failure can only
occur later, at first use). -/
theorem claim_C7 (nodes : List ℕ) (s : String) (Dt lamb : ℚ) (use_bias : Bool)
    (h₁ : s ≠ "Tanh") (h₂ : s ≠ "ReLU") :
    ∃ cfg, mkMultilayerPCN nodes s Dt lamb use_bias = Except.ok cfg ∧
      cfg.nonlins = List.replicate (nodes.length - 1) (NonlinSel.other s) := by
  refine ⟨_, rfl, ?_⟩
  simp [mkMultilayerPCN, h₁, h₂]

/-- Witness for C7: the amended claim applied to the concrete name
`"Softplus"`. -/
theorem claim_C7_witness :
    (("Softplus" : String) ≠ "Tanh" ∧ ("Softplus" : String) ≠ "ReLU") ∧
    ∃ cfg, mkMultilayerPCN [2, 2] "Softplus" 1 0 false = Except.ok cfg ∧
      cfg.nonlins = List.replicate ([2, 2].length - 1) (NonlinSel.other "Softplus") :=
  ⟨⟨by decide, by decide⟩, claim_C7 [2, 2] "Softplus" 1 0 false (by decide) (by decide)⟩

/-! ## Zero fixed point (C9) -/

theorem mem_zipWith {α β γ : Type} {f : α → β → γ} {x : γ} :
    ∀ {v : List α} {w : List β}, x ∈ List.zipWith f v w → ∃ a ∈ v, ∃ b ∈ w, x = f a b := by
  intro v
  induction v with
  | nil => intro w h; simp at h
  | cons a t ih =>
      intro w h
      cases w with
      | nil => simp at h
      | cons b u =>
          rw [List.zipWith_cons_cons] at h
          rcases List.mem_cons.mp h with h | h
          · exact ⟨a, by simp, b, by simp, h⟩
          · obtain ⟨a', ha', b', hb', rfl⟩ := ih h
            exact ⟨a', by simp [ha'], b', by simp [hb'], rfl⟩

theorem EntriesP_ewise {f : ℚ → ℚ → ℚ} {P₁ P₂ : ℚ → Prop} {a b : Tensor}
    (ha : EntriesP P₁ a) (hb : EntriesP P₂ b)
    (hf : ∀ x y, P₁ x → P₂ y → f x y = 0) : IsZeroT (ewise f a b) := by
  cases a <;> cases b <;> simp only [ewise, EntriesP, IsZeroT] at ha hb ⊢
  case scalar.scalar x y => exact hf x y ha hb
  case scalar.vec x w =>
      intro z hz; obtain ⟨y, hy, rfl⟩ := List.mem_map.mp hz
      exact hf x y ha (hb y hy)
  case scalar.mat x m =>
      intro r hr z hz
      obtain ⟨r₀, hr₀, rfl⟩ := List.mem_map.mp hr
      obtain ⟨y, hy, rfl⟩ := List.mem_map.mp hz
      exact hf x y ha (hb r₀ hr₀ y hy)
  case vec.scalar v y =>
      intro z hz; obtain ⟨x, hx, rfl⟩ := List.mem_map.mp hz
      exact hf x y (ha x hx) hb
  case vec.vec v w =>
      intro z hz; obtain ⟨x, hx, y, hy, rfl⟩ := mem_zipWith hz
      exact hf x y (ha x hx) (hb y hy)
  case vec.mat v m =>
      intro r hr z hz
      obtain ⟨r₀, hr₀, rfl⟩ := List.mem_map.mp hr
      obtain ⟨x, hx, y, hy, rfl⟩ := mem_zipWith hz
      exact hf x y (ha x hx) (hb r₀ hr₀ y hy)
  case mat.scalar m y =>
      intro r hr z hz
      obtain ⟨r₀, hr₀, rfl⟩ := List.mem_map.mp hr
      obtain ⟨x, hx, rfl⟩ := List.mem_map.mp hz
      exact hf x y (ha r₀ hr₀ x hx) hb
  case mat.vec m w =>
      intro r hr z hz
      obtain ⟨r₀, hr₀, rfl⟩ := List.mem_map.mp hr
      obtain ⟨x, hx, y, hy, rfl⟩ := mem_zipWith hz
      exact hf x y (ha r₀ hr₀ x hx) (hb y hy)
  case mat.mat m m₂ =>
      intro r hr z hz
      obtain ⟨r₁, hr₁, r₂, hr₂, rfl⟩ := mem_zipWith hr
      obtain ⟨x, hx, y, hy, rfl⟩ := mem_zipWith hz
      exact hf x y (ha r₁ hr₁ x hx) (hb r₂ hr₂ y hy)

theorem EntriesP_true (t : Tensor) : EntriesP (fun _ => True) t := by
  cases t <;> simp [EntriesP]

theorem IsZeroT_ewise_left {f : ℚ → ℚ → ℚ} (hf : ∀ y, f 0 y = 0) {a : Tensor}
    (ha : IsZeroT a) (b : Tensor) : IsZeroT (ewise f a b) :=
  EntriesP_ewise ha (EntriesP_true b) (fun x y hx _ => by rw [hx]; exact hf y)

theorem IsZeroT_ewise_right {f : ℚ → ℚ → ℚ} (hf : ∀ x, f x 0 = 0) {b : Tensor}
    (hb : IsZeroT b) (a : Tensor) : IsZeroT (ewise f a b) :=
  EntriesP_ewise (EntriesP_true a) hb (fun x y _ hy => by rw [hy]; exact hf x)

theorem IsZeroT_ewise_both {f : ℚ → ℚ → ℚ} (hf : f 0 0 = 0) {a b : Tensor}
    (ha : IsZeroT a) (hb : IsZeroT b) : IsZeroT (ewise f a b) :=
  EntriesP_ewise ha hb (fun x y hx hy => by rw [hx, hy]; exact hf)

theorem IsZeroT_tmap {f : ℚ → ℚ} (hf : f 0 = 0) {a : Tensor} (ha : IsZeroT a) :
    IsZeroT (tmap f a) := by
  cases a <;> simp only [tmap, IsZeroT, EntriesP] at ha ⊢
  · rw [ha]; exact hf
  · intro z hz; obtain ⟨x, hx, rfl⟩ := List.mem_map.mp hz; rw [ha x hx]; exact hf
  · intro r hr z hz
    obtain ⟨r₀, hr₀, rfl⟩ := List.mem_map.mp hr
    obtain ⟨x, hx, rfl⟩ := List.mem_map.mp hz
    rw [ha r₀ hr₀ x hx]; exact hf

theorem dotL_zero_left {v : List ℚ} (hv : ∀ x ∈ v, x = 0) (w : List ℚ) :
    dotL v w = 0 := by
  apply List.sum_eq_zero
  intro z hz
  obtain ⟨x, hx, y, _, rfl⟩ := mem_zipWith hz
  rw [hv x hx, zero_mul]

theorem IsZeroT_tmatmul_left {a : Tensor} (ha : IsZeroT a) (b : Tensor) :
    IsZeroT (tmatmul a b) := by
  cases a <;> cases b <;> simp only [tmatmul, junk, IsZeroT, EntriesP] at ha ⊢
  case vec.vec v w => exact dotL_zero_left ha w
  case vec.mat v m =>
      intro z hz
      obtain ⟨col, _, rfl⟩ := List.mem_map.mp hz
      exact dotL_zero_left ha col
  case mat.vec m w =>
      intro z hz
      obtain ⟨row, hrow, rfl⟩ := List.mem_map.mp hz
      exact dotL_zero_left (ha row hrow) w
  case mat.mat m m₂ =>
      intro r hr z hz
      obtain ⟨row, hrow, rfl⟩ := List.mem_map.mp hr
      obtain ⟨col, _, rfl⟩ := List.mem_map.mp hz
      exact dotL_zero_left (ha row hrow) col

theorem zero_getD {xs : List Tensor} (h : ∀ t ∈ xs, IsZeroT t) (l : ℕ) :
    IsZeroT (xs.getD l junk) := by
  rcases Nat.lt_or_ge l xs.length with hl | hl
  · exact h _ (getD_mem_of_lt xs junk hl)
  · rw [List.getD_eq_default _ _ hl]; exact rfl

theorem zero_linearApply {W : List (List ℚ)} (hW : ∀ r ∈ W, ∀ x ∈ r, x = 0)
    (b : List ℚ) (x : Tensor) : IsZeroT (linearApply W b false x) := by
  cases x <;> simp only [linearApply, Bool.false_eq_true, if_false, IsZeroT, EntriesP]
  · exact rfl
  · intro z hz
    obtain ⟨row, hrow, rfl⟩ := List.mem_map.mp hz
    exact dotL_zero_left (hW row hrow) _
  · intro r hr z hz
    obtain ⟨v, _, rfl⟩ := List.mem_map.mp hr
    obtain ⟨row, hrow, rfl⟩ := List.mem_map.mp hz
    exact dotL_zero_left (hW row hrow) v

theorem zero_layerApply {M : MultilayerPCN}
    (hW : ∀ W ∈ M.weights, ∀ r ∈ W, ∀ x ∈ r, x = 0) (hub : M.use_bias = false)
    (l : ℕ) (x : Tensor) : IsZeroT (M.layerApply l x) := by
  have hWl : ∀ r ∈ M.weights.getD l [], ∀ y ∈ r, y = 0 := by
    rcases Nat.lt_or_ge l M.weights.length with hl | hl
    · exact hW _ (getD_mem_of_lt _ [] hl)
    · rw [List.getD_eq_default _ _ hl]; simp
  unfold MultilayerPCN.layerApply
  rw [hub]
  exact zero_linearApply hWl _ x

theorem zero_forwardVal {M : MultilayerPCN}
    (hW : ∀ W ∈ M.weights, ∀ r ∈ W, ∀ x ∈ r, x = 0)
    (hmem : ∀ x ∈ M.memory, x = 0) (hub : M.use_bias = false) (l : ℕ) :
    IsZeroT (forwardVal M l) := by
  cases l with
  | zero => exact hmem
  | succ n => exact zero_layerApply hW hub n _

theorem zero_update_err_nodes {M : MultilayerPCN}
    (hvar : M.variant = Variant.hierarchical)
    (hW : ∀ W ∈ M.weights, ∀ r ∈ W, ∀ x ∈ r, x = 0)
    (hmem : ∀ x ∈ M.memory, x = 0) (hub : M.use_bias = false) {s : PCState}
    (hv : ∀ t ∈ s.val_nodes, IsZeroT t) :
    (∀ t ∈ (update_err_nodes M s).val_nodes, IsZeroT t) ∧
    (∀ t ∈ (update_err_nodes M s).errs, IsZeroT t) := by
  have hpred : ∀ l : ℕ, IsZeroT (predOf M s l) := by
    intro l
    unfold predOf
    by_cases hl0 : l = 0
    · rw [if_pos hl0, hvar]
      exact hmem
    · rw [if_neg hl0]
      exact zero_layerApply hW hub _ _
  constructor
  · rw [update_err_nodes_val_nodes]; exact hv
  · intro t ht
    simp only [update_err_nodes, List.mem_map, List.mem_range] at ht
    obtain ⟨l, _, rfl⟩ := ht
    apply IsZeroT_ewise_both (by norm_num) (zero_getD hv l)
    apply zero_getD _ l
    intro t' ht'
    simp only [List.mem_map, List.mem_range] at ht'
    obtain ⟨l', _, rfl⟩ := ht'
    exact hpred l'

theorem zero_update_val_nodes {M : MultilayerPCN}
    (hvar : M.variant = Variant.hierarchical)
    (hW : ∀ W ∈ M.weights, ∀ r ∈ W, ∀ x ∈ r, x = 0)
    (hmem : ∀ x ∈ M.memory, x = 0) (hub : M.use_bias = false)
    (update_mask : Tensor) (recon : Bool) {s : PCState}
    (hv : ∀ t ∈ s.val_nodes, IsZeroT t) (he : ∀ t ∈ s.errs, IsZeroT t) :
    (∀ t ∈ (update_val_nodes M update_mask recon s).val_nodes, IsZeroT t) ∧
    (∀ t ∈ (update_val_nodes M update_mask recon s).errs, IsZeroT t) := by
  apply zero_update_err_nodes hvar hW hmem hub
  intro t ht
  simp only [List.mem_map, List.mem_range] at ht
  obtain ⟨l, _, rfl⟩ := ht
  by_cases h₁ : l < M.n_layers - 1
  · rw [if_pos h₁]
    apply IsZeroT_ewise_both (by norm_num) (zero_getD hv l)
    apply IsZeroT_tmap (by norm_num)
    apply IsZeroT_ewise_both (by norm_num)
    · apply IsZeroT_ewise_both (by norm_num)
      · exact IsZeroT_tmap (by norm_num) (zero_getD he l)
      · apply IsZeroT_tmap (by norm_num)
        apply IsZeroT_tmap _ (zero_getD hv l)
        norm_num
    · apply IsZeroT_ewise_right (by intro x; ring_nf)
        (IsZeroT_tmatmul_left (zero_getD he (l + 1)) _) _
  · rw [if_neg h₁]
    by_cases h₂ : recon = true
    · rw [if_pos h₂]
      apply IsZeroT_ewise_both (by norm_num) (zero_getD hv l)
      apply IsZeroT_tmap (by norm_num)
      apply IsZeroT_ewise_left (by intro y; ring_nf)
        (IsZeroT_tmap (by norm_num) (zero_getD he l)) _
    · rw [if_neg h₂]
      exact zero_getD hv l

/-- C9: for a hierarchical model with all weights zero, zero memory and
bias disabled, after `set_nodes` on an all-zero input batch every error
node is zero and remains zero after any number of relaxation steps
(with or without sensory relaxation, under any mask). -/
theorem claim_C9 (M : MultilayerPCN) (inp update_mask : Tensor) (recon : Bool)
    (hvar : M.variant = Variant.hierarchical)
    (hW : ∀ W ∈ M.weights, ∀ r ∈ W, ∀ x ∈ r, x = 0)
    (hmem : ∀ x ∈ M.memory, x = 0) (hub : M.use_bias = false)
    (hinp : IsZeroT inp) (k l : ℕ) :
    IsZeroT ((relaxSteps M update_mask recon k (set_nodes M inp)).errs.getD l junk) := by
  have hset : (∀ t ∈ (set_nodes M inp).val_nodes, IsZeroT t) ∧
      (∀ t ∈ (set_nodes M inp).errs, IsZeroT t) := by
    apply zero_update_err_nodes hvar hW hmem hub
    intro t ht
    rcases List.mem_append.mp ht with ht | ht
    · simp only [List.mem_map, List.mem_range] at ht
      obtain ⟨l', _, rfl⟩ := ht
      exact zero_forwardVal hW hmem hub l'
    · rw [List.mem_singleton.mp ht]
      exact hinp
  have hinv : ∀ k s, (∀ t ∈ (s : PCState).val_nodes, IsZeroT t) →
      (∀ t ∈ s.errs, IsZeroT t) →
      (∀ t ∈ (relaxSteps M update_mask recon k s).val_nodes, IsZeroT t) ∧
      (∀ t ∈ (relaxSteps M update_mask recon k s).errs, IsZeroT t) := by
    intro k
    induction k with
    | zero => intro s hv he; exact ⟨hv, he⟩
    | succ n ih =>
        intro s hv he
        have := zero_update_val_nodes hvar hW hmem hub update_mask recon hv he
        exact ih _ this.1 this.2
  exact zero_getD (hinv k _ hset.1 hset.2).2 l

/-- Witness for C9: the zero fixed point evaluated on the concrete
all-zero model `mdlA` with the all-zero batch `inpA`, two relaxation
steps, layer 0. -/
theorem claim_C9_witness :
    (mdlA.variant = Variant.hierarchical ∧
      (∀ W ∈ mdlA.weights, ∀ r ∈ W, ∀ x ∈ r, x = 0) ∧
      (∀ x ∈ mdlA.memory, x = 0) ∧ mdlA.use_bias = false ∧ IsZeroT inpA) ∧
    IsZeroT ((relaxSteps mdlA junk false 2 (set_nodes mdlA inpA)).errs.getD 0 junk) :=
  ⟨⟨rfl, by decide, by decide, rfl, by decide⟩,
    claim_C9 mdlA inpA junk false rfl (by decide) (by decide) rfl (by decide) 2 0⟩

/-! ## Shape propagation (C1, C5, C8) -/

theorem ShV_tmap (f : ℚ → ℚ) {n : ℕ} {t : Tensor} (h : ShV n t) : ShV n (tmap f t) := by
  obtain ⟨v, rfl, hv⟩ := h
  exact ⟨v.map f, rfl, by rw [List.length_map, hv]⟩

theorem ShM_tmap (f : ℚ → ℚ) {B n : ℕ} {t : Tensor} (h : ShM B n t) : ShM B n (tmap f t) := by
  obtain ⟨m, rfl, hm⟩ := h
  refine ⟨m.map (List.map f), rfl, by rw [List.length_map, hm.1], ?_⟩
  intro r hr
  obtain ⟨r₀, hr₀, rfl⟩ := List.mem_map.mp hr
  rw [List.length_map]
  exact hm.2 r₀ hr₀

theorem ShV_ewise (f : ℚ → ℚ → ℚ) {n : ℕ} {a b : Tensor} (ha : ShV n a) (hb : ShV n b) :
    ShV n (ewise f a b) := by
  obtain ⟨v, rfl, hv⟩ := ha
  obtain ⟨w, rfl, hw⟩ := hb
  exact ⟨List.zipWith f v w, rfl, by rw [List.length_zipWith, hv, hw, Nat.min_self]⟩

theorem ShM_ewise_MM (f : ℚ → ℚ → ℚ) {B n : ℕ} {a b : Tensor} (ha : ShM B n a)
    (hb : ShM B n b) : ShM B n (ewise f a b) := by
  obtain ⟨m, rfl, hm⟩ := ha
  obtain ⟨m₂, rfl, hm₂⟩ := hb
  refine ⟨List.zipWith (List.zipWith f) m m₂, rfl,
    by rw [List.length_zipWith, hm.1, hm₂.1, Nat.min_self], ?_⟩
  intro r hr
  obtain ⟨r₁, hr₁, r₂, hr₂, rfl⟩ := mem_zipWith hr
  rw [List.length_zipWith, hm.2 r₁ hr₁, hm₂.2 r₂ hr₂, Nat.min_self]

theorem ShM_ewise_VM (f : ℚ → ℚ → ℚ) {B n : ℕ} {a b : Tensor} (ha : ShV n a)
    (hb : ShM B n b) : ShM B n (ewise f a b) := by
  obtain ⟨v, rfl, hv⟩ := ha
  obtain ⟨m, rfl, hm⟩ := hb
  refine ⟨m.map (fun r => List.zipWith f v r), rfl, by rw [List.length_map, hm.1], ?_⟩
  intro r hr
  obtain ⟨r₀, hr₀, rfl⟩ := List.mem_map.mp hr
  rw [List.length_zipWith, hv, hm.2 r₀ hr₀, Nat.min_self]

theorem ShM_ewise_MV (f : ℚ → ℚ → ℚ) {B n : ℕ} {a b : Tensor} (ha : ShM B n a)
    (hb : ShV n b) : ShM B n (ewise f a b) := by
  obtain ⟨m, rfl, hm⟩ := ha
  obtain ⟨w, rfl, hw⟩ := hb
  refine ⟨m.map (fun r => List.zipWith f r w), rfl, by rw [List.length_map, hm.1], ?_⟩
  intro r hr
  obtain ⟨r₀, hr₀, rfl⟩ := List.mem_map.mp hr
  rw [List.length_zipWith, hw, hm.2 r₀ hr₀, Nat.min_self]

theorem ShV_linearApply {o i : ℕ} {W : List (List ℚ)} {b : List ℚ} {ub : Bool}
    (hW : IsMat o i W) (hb : ub = true → b.length = o) {x : Tensor} (hx : ShV i x) :
    ShV o (linearApply W b ub x) := by
  obtain ⟨v, rfl, hv⟩ := hx
  cases ub with
  | false => exact ⟨W.map (fun row => dotL row v), rfl, by rw [List.length_map, hW.1]⟩
  | true =>
      refine ⟨List.zipWith (· + ·) (W.map (fun row => dotL row v)) b, by simp [linearApply], ?_⟩
      rw [List.length_zipWith, List.length_map, hW.1, hb rfl, Nat.min_self]

theorem ShM_linearApply {B o i : ℕ} {W : List (List ℚ)} {b : List ℚ} {ub : Bool}
    (hW : IsMat o i W) (hb : ub = true → b.length = o) {x : Tensor} (hx : ShM B i x) :
    ShM B o (linearApply W b ub x) := by
  obtain ⟨m, rfl, hm⟩ := hx
  refine ⟨m.map (fun v =>
      let y := W.map (fun row => dotL row v)
      if ub then List.zipWith (· + ·) y b else y), rfl,
    by rw [List.length_map, hm.1], ?_⟩
  intro r hr
  obtain ⟨v, _, rfl⟩ := List.mem_map.mp hr
  cases ub with
  | false => simp only [Bool.false_eq_true, if_false]; rw [List.length_map, hW.1]
  | true =>
      simp only [if_true]
      rw [List.length_zipWith, List.length_map, hW.1, hb rfl, Nat.min_self]

theorem ShV_tmatmul_W {p q : ℕ} {W : List (List ℚ)} (hW : IsMat p q W) (hp : 0 < p)
    {t : Tensor} (ht : ShV p t) : ShV q (tmatmul t (Tensor.mat W)) := by
  obtain ⟨v, rfl, _⟩ := ht
  exact ⟨vecMatM v W, rfl, by
    rw [show (vecMatM v W).length = (transposeM W).length from List.length_map _ _,
      (transposeM_IsMat hW hp).1]⟩

theorem ShM_tmatmul_W {B p q : ℕ} {W : List (List ℚ)} (hW : IsMat p q W) (hp : 0 < p)
    {t : Tensor} (ht : ShM B p t) : ShM B q (tmatmul t (Tensor.mat W)) := by
  obtain ⟨m, rfl, hm⟩ := ht
  exact ⟨matMulM m W, rfl, matMulM_IsMat hm hW hp⟩

theorem ShV_sumAxis0 {B n : ℕ} {t : Tensor} (ht : ShM B n t) (hB : 0 < B) :
    ShV n (sumAxis0 t) := by
  obtain ⟨m, rfl, hm⟩ := ht
  exact ⟨(transposeM m).map List.sum, rfl,
    by rw [List.length_map, (transposeM_IsMat hm hB).1]⟩

theorem fillDiag_IsMat {p q : ℕ} {m : List (List ℚ)} (h : IsMat p q m) :
    IsMat p q (m.enum.map (fun x => x.2.set x.1 0)) := by
  refine ⟨by rw [List.length_map, List.enum_length, h.1], ?_⟩
  intro r hr
  obtain ⟨x, hx, rfl⟩ := List.mem_map.mp hr
  rw [List.length_set]
  exact h.2 x.2 (List.snd_mem_of_mem_enum hx)

theorem getD_append_left {α : Type} (xs ys : List α) (d : α) {i : ℕ} (h : i < xs.length) :
    (xs ++ ys).getD i d = xs.getD i d := by
  rw [List.getD_eq_getElem?_getD, List.getElem?_append, if_pos h,
    List.getD_eq_getElem?_getD]

theorem getD_append_last {α : Type} (xs : List α) (y : α) (d : α) :
    (xs ++ [y]).getD xs.length d = y := by
  rw [List.getD_eq_getElem?_getD, List.getElem?_append_right (le_refl _)]
  simp

theorem update_err_nodes_errs_getD (M : MultilayerPCN) (s : PCState) {l : ℕ}
    (hl : l < M.n_layers) :
    (update_err_nodes M s).errs.getD l junk =
      ewSub (s.val_nodes.getD l junk) (predOf M s l) := by
  show ((List.range M.n_layers).map _).getD l junk = _
  rw [getD_map_range _ _ hl]
  congr 1
  exact getD_map_range _ _ hl

theorem predOf_shape {M : MultilayerPCN} {B j : ℕ} (hM : WFModel M) (hB : 0 < B)
    {s : PCState}
    (hval : ∀ l < M.n_layers,
      if l < j then ShV (M.nodes.getD l 0) (s.val_nodes.getD l junk)
      else ShM B (M.nodes.getD l 0) (s.val_nodes.getD l junk))
    {l : ℕ} (hl : l < M.n_layers) :
    (l < j → ShV (M.nodes.getD l 0) (predOf M s l)) ∧
    Sh B (M.nodes.getD l 0) (predOf M s l) := by
  obtain ⟨hL2, hpos, hWlen, hW, hbias, hmem, hWr⟩ := hM
  by_cases hl0 : l = 0
  · subst hl0
    unfold predOf
    rw [if_pos rfl]
    cases hvariant : M.variant with
    | hierarchical =>
        have hv : ShV (M.nodes.getD 0 0) (Tensor.vec M.memory) := ⟨M.memory, rfl, hmem⟩
        exact ⟨fun _ => hv, Or.inl hv⟩
    | hybrid =>
        have hT : IsMat (M.nodes.getD 0 0) (M.nodes.getD 0 0) (transposeM M.Wr) :=
          transposeM_IsMat (hWr hvariant) (hpos 0 hl)
        have hmemV : ShV (M.nodes.getD 0 0) (Tensor.vec M.memory) := ⟨M.memory, rfl, hmem⟩
        have h0 := hval 0 hl
        by_cases h0j : 0 < j
        · rw [if_pos h0j] at h0
          have hmm := ShV_tmatmul_W hT (hpos 0 hl) h0
          exact ⟨fun _ => ShV_ewise _ hmemV hmm, Or.inl (ShV_ewise _ hmemV hmm)⟩
        · rw [if_neg h0j] at h0
          have hmm := ShM_tmatmul_W hT (hpos 0 hl) h0
          exact ⟨fun hj0 => absurd hj0 h0j, Or.inr (ShM_ewise_VM _ hmemV hmm)⟩
  · have hl1 : 1 ≤ l := Nat.one_le_iff_ne_zero.mpr hl0
    unfold predOf
    rw [if_neg hl0]
    have hWl : IsMat (M.nodes.getD l 0) (M.nodes.getD (l-1) 0) (M.weights.getD (l-1) []) := by
      have := hW (l-1) (by omega)
      rwa [show l - 1 + 1 = l from by omega] at this
    have hbl : M.use_bias = true → (M.biases.getD (l-1) []).length = M.nodes.getD l 0 := by
      intro hub
      have := hbias hub (l-1) (by omega)
      rwa [show l - 1 + 1 = l from by omega] at this
    have hvl := hval (l-1) (by omega)
    by_cases hlj : l - 1 < j
    · rw [if_pos hlj] at hvl
      have hres := ShV_linearApply hWl hbl (ShV_tmap (M.nonlinAt (l - 1)).apply hvl)
      exact ⟨fun _ => hres, Or.inl hres⟩
    · rw [if_neg hlj] at hvl
      have hres := ShM_linearApply hWl hbl (ShM_tmap (M.nonlinAt (l - 1)).apply hvl)
      exact ⟨fun hlj2 => absurd (by omega : l - 1 < j) hlj, Or.inr hres⟩

theorem update_err_nodes_mixed {M : MultilayerPCN} {B j : ℕ} (hM : WFModel M) (hB : 0 < B)
    {s : PCState} (hlen : s.val_nodes.length = M.n_layers)
    (hval : ∀ l < M.n_layers,
      if l < j then ShV (M.nodes.getD l 0) (s.val_nodes.getD l junk)
      else ShM B (M.nodes.getD l 0) (s.val_nodes.getD l junk)) :
    MixedState M B j (update_err_nodes M s) := by
  refine ⟨by rw [update_err_nodes_val_nodes]; exact hlen, by
    show ((List.range M.n_layers).map _).length = _
    rw [List.length_map, List.length_range], ?_⟩
  intro l hl
  have hv := hval l hl
  have hp := predOf_shape hM hB hval hl
  rw [show (update_err_nodes M s).val_nodes = s.val_nodes from update_err_nodes_val_nodes M s,
    update_err_nodes_errs_getD M s hl]
  by_cases hlj : l < j
  · rw [if_pos hlj]
    rw [if_pos hlj] at hv
    exact ⟨hv, ShV_ewise _ hv (hp.1 hlj)⟩
  · rw [if_neg hlj]
    rw [if_neg hlj] at hv
    refine ⟨hv, ?_⟩
    rcases hp.2 with hpv | hpm
    · exact ShM_ewise_MV _ hv hpv
    · exact ShM_ewise_MM _ hv hpm

theorem forwardVal_ShV {M : MultilayerPCN} (hM : WFModel M) :
    ∀ l, l < M.n_layers - 1 → ShV (M.nodes.getD l 0) (forwardVal M l) := by
  obtain ⟨hL2, hpos, hWlen, hW, hbias, hmem, hWr⟩ := hM
  intro l
  induction l with
  | zero => intro _; exact ⟨M.memory, rfl, hmem⟩
  | succ n ih =>
      intro hn
      exact ShV_linearApply (hW n (by omega)) (fun hub => hbias hub n (by omega))
        (ShV_tmap _ (ih (by omega)))

theorem set_nodes_val_getD_lt (M : MultilayerPCN) (inp : Tensor) {l : ℕ}
    (hl : l < M.n_layers - 1) :
    (set_nodes M inp).val_nodes.getD l junk = forwardVal M l := by
  show (((List.range (M.n_layers - 1)).map (forwardVal M)) ++ [inp]).getD l junk = _
  rw [getD_append_left _ _ _ (by rw [List.length_map, List.length_range]; exact hl)]
  exact getD_map_range _ _ hl

theorem set_nodes_val_getD_last (M : MultilayerPCN) (inp : Tensor) :
    (set_nodes M inp).val_nodes.getD (M.n_layers - 1) junk = inp := by
  have h := getD_append_last ((List.range (M.n_layers - 1)).map (forwardVal M)) inp junk
  rw [List.length_map, List.length_range] at h
  exact h

theorem set_nodes_mixed {M : MultilayerPCN} {B : ℕ} (hM : WFModel M) (hB : 0 < B)
    {inp : Tensor} (hinp : ShM B (M.nodes.getD (M.n_layers - 1) 0) inp) :
    MixedState M B (M.n_layers - 1) (set_nodes M inp) := by
  have hL2 : 2 ≤ M.n_layers := hM.1
  apply update_err_nodes_mixed hM hB
  · show (((List.range (M.n_layers - 1)).map (forwardVal M)) ++ [inp]).length = _
    rw [List.length_append, List.length_map, List.length_range, List.length_singleton]
    omega
  · intro l hl
    by_cases hlj : l < M.n_layers - 1
    · rw [if_pos hlj]
      show ShV (M.nodes.getD l 0)
        ((((List.range (M.n_layers - 1)).map (forwardVal M)) ++ [inp]).getD l junk)
      rw [getD_append_left _ _ _ (by rw [List.length_map, List.length_range]; exact hlj),
        getD_map_range _ _ hlj]
      exact forwardVal_ShV hM l hlj
    · rw [if_neg hlj]
      have hleq : l = M.n_layers - 1 := by omega
      subst hleq
      show ShM B (M.nodes.getD (M.n_layers - 1) 0)
        ((((List.range (M.n_layers - 1)).map (forwardVal M)) ++ [inp]).getD
          (M.n_layers - 1) junk)
      have h := getD_append_last ((List.range (M.n_layers - 1)).map (forwardVal M)) inp junk
      rw [List.length_map, List.length_range] at h
      rw [h]
      exact hinp

theorem update_val_nodes_mixed {M : MultilayerPCN} {B j : ℕ} (hM : WFModel M) (hB : 0 < B)
    (update_mask : Tensor) (recon : Bool)
    (hmask : recon = true → Sh B (M.nodes.getD (M.n_layers - 1) 0) update_mask)
    {s : PCState} (hmix : MixedState M B j s) (hj : j ≤ M.n_layers - 1) :
    MixedState M B (j - 1) (update_val_nodes M update_mask recon s) := by
  obtain ⟨hvlen, helen, hsh⟩ := hmix
  have hW := hM.2.2.2.1
  have hpos := hM.2.1
  apply update_err_nodes_mixed hM hB
  · show ((List.range M.n_layers).map _).length = _
    rw [List.length_map, List.length_range]
  · intro l hl
    rw [getD_map_range _ _ hl]
    have hs := hsh l hl
    by_cases hsens : l < M.n_layers - 1
    · rw [if_pos hsens]
      have hs₁ := hsh (l + 1) (by omega)
      have hWl := hW l hsens
      have hp₁ : 0 < M.nodes.getD (l + 1) 0 := hpos (l + 1) (by omega)
      by_cases hlj : l < j
      · rw [if_pos hlj] at hs
        by_cases hlj₁ : l + 1 < j
        · rw [if_pos hlj₁] at hs₁
          rw [if_pos (by omega : l < j - 1)]
          exact ShV_ewise _ hs.1 (ShV_tmap _ (ShV_ewise _
            (ShV_ewise _ (ShV_tmap _ hs.2) (ShV_tmap _ (ShV_tmap _ hs.1)))
            (ShV_ewise _ (ShV_tmap _ hs.1) (ShV_tmatmul_W hWl hp₁ hs₁.2))))
        · rw [if_neg hlj₁] at hs₁
          rw [if_neg (by omega : ¬ l < j - 1)]
          apply ShM_ewise_VM _ hs.1
          apply ShM_tmap
          apply ShM_ewise_VM _
            (ShV_ewise _ (ShV_tmap _ hs.2) (ShV_tmap _ (ShV_tmap _ hs.1)))
          exact ShM_ewise_VM _ (ShV_tmap _ hs.1) (ShM_tmatmul_W hWl hp₁ hs₁.2)
      · rw [if_neg hlj] at hs
        rw [if_neg (by omega : ¬ l < j - 1)]
        have hs₁M : ShM B (M.nodes.getD (l + 1) 0) (s.errs.getD (l + 1) junk) := by
          by_cases hlj₁ : l + 1 < j
          · omega
          · rw [if_neg hlj₁] at hs₁; exact hs₁.2
        apply ShM_ewise_MM _ hs.1
        apply ShM_tmap
        apply ShM_ewise_MM _
          (ShM_ewise_MM _ (ShM_tmap _ hs.2) (ShM_tmap _ (ShM_tmap _ hs.1)))
        exact ShM_ewise_MM _ (ShM_tmap _ hs.1) (ShM_tmatmul_W hWl hp₁ hs₁M)
    · rw [if_neg hsens]
      have hlL : l = M.n_layers - 1 := by omega
      have hljM : ¬ l < j := by omega
      rw [if_neg hljM] at hs
      rw [if_neg (by omega : ¬ l < j - 1)]
      cases recon with
      | false => exact hs.1
      | true =>
          apply ShM_ewise_MM _ hs.1
          apply ShM_tmap
          rcases hmask rfl with hmk | hmk
          · rw [hlL] at hs ⊢
            exact ShM_ewise_MV _ (ShM_tmap _ hs.2) hmk
          · rw [hlL] at hs ⊢
            exact ShM_ewise_MM _ (ShM_tmap _ hs.2) hmk

theorem relaxSteps_mixed {M : MultilayerPCN} {B : ℕ} (hM : WFModel M) (hB : 0 < B)
    (update_mask : Tensor) (recon : Bool)
    (hmask : recon = true → Sh B (M.nodes.getD (M.n_layers - 1) 0) update_mask) :
    ∀ (k j : ℕ) {s : PCState}, MixedState M B j s → j ≤ M.n_layers - 1 → j ≤ k →
      MixedState M B 0 (relaxSteps M update_mask recon k s) := by
  intro k
  induction k with
  | zero =>
      intro j s hmix _ hk
      have hj0 : j = 0 := by omega
      subst hj0
      exact hmix
  | succ n ih =>
      intro j s hmix hj hk
      show MixedState M B 0 (relaxSteps M update_mask recon n (update_val_nodes M update_mask recon s))
      exact ih (j - 1) (update_val_nodes_mixed hM hB update_mask recon hmask hmix hj)
        (by omega) (by omega)

theorem update_grads_memory (M : MultilayerPCN) (s : PCState) :
    (update_grads M s).memory = tneg (sumAxis0 (s.errs.getD 0 junk)) := by
  cases hv : M.variant <;> simp [update_grads, hv]

theorem update_grads_weights (M : MultilayerPCN) (s : PCState) :
    (update_grads M s).weights = (List.range (M.n_layers - 1)).map (fun l =>
      tneg (tmatmul (ttranspose (s.errs.getD (l + 1) junk))
        (tmap (M.nonlinAt l).apply (s.val_nodes.getD l junk)))) := by
  cases hv : M.variant <;> simp [update_grads, hv]

theorem update_grads_biases (M : MultilayerPCN) (s : PCState) :
    (update_grads M s).biases =
      if M.use_bias then (List.range (M.n_layers - 1)).map (fun l =>
        tneg (sumAxis0 (s.errs.getD (l + 1) junk)))
      else [] := by
  cases hv : M.variant <;> simp [update_grads, hv]

theorem update_grads_Wr (M : MultilayerPCN) (s : PCState)
    (hv : M.variant = Variant.hybrid) :
    (update_grads M s).Wr = some (tneg (fillDiagZero
      (tmatmul (ttranspose (s.errs.getD 0 junk)) (s.val_nodes.getD 0 junk)))) := by
  simp [update_grads, hv]

theorem IsMat_map_rows {p q : ℕ} (f : ℚ → ℚ) {m : List (List ℚ)} (h : IsMat p q m) :
    IsMat p q (m.map (List.map f)) := by
  refine ⟨by rw [List.length_map, h.1], ?_⟩
  intro r hr
  obtain ⟨r₀, hr₀, rfl⟩ := List.mem_map.mp hr
  rw [List.length_map]
  exact h.2 r₀ hr₀

theorem update_grads_shapes {M : MultilayerPCN} {B : ℕ} (hM : WFModel M) (hB : 0 < B)
    {s : PCState} (hmix : MixedState M B 0 s) :
    ShV (M.nodes.getD 0 0) ((update_grads M s).memory) ∧
    (∀ l < M.n_layers - 1, ShM (M.nodes.getD (l + 1) 0) (M.nodes.getD l 0)
      ((update_grads M s).weights.getD l junk)) ∧
    (M.use_bias = true → ∀ l < M.n_layers - 1,
      ShV (M.nodes.getD (l + 1) 0) ((update_grads M s).biases.getD l junk)) ∧
    (M.variant = Variant.hybrid → ∃ G, (update_grads M s).Wr = some (Tensor.mat G) ∧
      IsMat (M.nodes.getD 0 0) (M.nodes.getD 0 0) G) := by
  obtain ⟨hvlen, helen, hsh⟩ := hmix
  have hL2 : 2 ≤ M.n_layers := hM.1
  have shAt : ∀ l, l < M.n_layers →
      ShM B (M.nodes.getD l 0) (s.val_nodes.getD l junk) ∧
      ShM B (M.nodes.getD l 0) (s.errs.getD l junk) := by
    intro l hl
    have := hsh l hl
    rwa [if_neg (Nat.not_lt_zero l)] at this
  refine ⟨?_, ?_, ?_, ?_⟩
  · rw [update_grads_memory]
    exact ShV_tmap _ (ShV_sumAxis0 (shAt 0 (by omega)).2 hB)
  · intro l hl
    rw [update_grads_weights, getD_map_range _ _ hl]
    obtain ⟨E, hE, hEm⟩ := (shAt (l + 1) (by omega)).2
    obtain ⟨V, hV, hVm⟩ := (shAt l (by omega)).1
    rw [hE, hV]
    apply ShM_tmap
    exact ShM_tmatmul_W (IsMat_map_rows _ hVm) hB
      ⟨transposeM E, rfl, transposeM_IsMat hEm hB⟩
  · intro hub l hl
    rw [update_grads_biases, if_pos hub, getD_map_range _ _ hl]
    exact ShV_tmap _ (ShV_sumAxis0 (shAt (l + 1) (by omega)).2 hB)
  · intro hv
    rw [update_grads_Wr M s hv]
    obtain ⟨E, hE, hEm⟩ := (shAt 0 (by omega)).2
    obtain ⟨V, hV, hVm⟩ := (shAt 0 (by omega)).1
    rw [hE, hV]
    refine ⟨_, rfl, ?_⟩
    exact IsMat_map_rows _ (fillDiag_IsMat
      (matMulM_IsMat (transposeM_IsMat hEm hB) hVm hB))

/-- Counterexample to C5 as stated: on the two-layer model `mdlA`
(`nodes = [2,1]`, batch size 2) with `n_iters = 0`, the computed memory
gradient is the 0-d tensor `sum(errs[0])` over the feature axis — the
unbatched `errs[0]` vector was never batched — so its shape does not
match the memory parameter's shape `(2,)`. -/
theorem claim_C5_counterexample :
    (∃ x, (train_pc_generative mdlA inpA 0 junk).2.memory = Tensor.scalar x) ∧
    ¬ ShV 2 ((train_pc_generative mdlA inpA 0 junk).2.memory) :=
  ⟨⟨_, rfl⟩, by decide⟩

/-- C5 (amended): provided `n_iters ≥ n_layers - 1` (the number of
relaxation steps needed for the batch dimension to spread from the
sensory layer to layer 0), after `train_pc_generative` every learnable
parameter's gradient has the parameter's shape: the memory gradient is
a vector of length `nodes[0]`, each layer-`l` weight gradient a matrix
of shape `(nodes[l+1], nodes[l])`, each enabled bias gradient a vector
of length `nodes[l+1]`, and for the hybrid variant the `Wr` gradient a
square matrix of size `nodes[0]`. -/
theorem claim_C5 (M : MultilayerPCN) (inp update_mask : Tensor) (n_iters B : ℕ)
    (hM : WFModel M) (hB : 0 < B)
    (hinp : ShM B (M.nodes.getD (M.n_layers - 1) 0) inp)
    (hn : M.n_layers - 1 ≤ n_iters) :
    ShV (M.nodes.getD 0 0) ((train_pc_generative M inp n_iters update_mask).2.memory) ∧
    (∀ l < M.n_layers - 1, ShM (M.nodes.getD (l + 1) 0) (M.nodes.getD l 0)
      ((train_pc_generative M inp n_iters update_mask).2.weights.getD l junk)) ∧
    (M.use_bias = true → ∀ l < M.n_layers - 1, ShV (M.nodes.getD (l + 1) 0)
      ((train_pc_generative M inp n_iters update_mask).2.biases.getD l junk)) ∧
    (M.variant = Variant.hybrid → ∃ G,
      (train_pc_generative M inp n_iters update_mask).2.Wr = some (Tensor.mat G) ∧
      IsMat (M.nodes.getD 0 0) (M.nodes.getD 0 0) G) := by
  have hmix0 : MixedState M B 0 (relaxSteps M update_mask false n_iters (set_nodes M inp)) :=
    relaxSteps_mixed hM hB update_mask false (fun h => nomatch h) n_iters (M.n_layers - 1)
      (set_nodes_mixed hM hB hinp) (le_refl _) hn
  exact update_grads_shapes hM hB hmix0

/-- Witness for C5: the amended claim applied to the concrete hybrid
model `mdlB` (2 layers) with batch size 1 and `n_iters = 1`. -/
theorem claim_C5_witness :
    (WFModel mdlB ∧ 0 < 1 ∧ ShM 1 (mdlB.nodes.getD (mdlB.n_layers - 1) 0) inpB ∧
      mdlB.n_layers - 1 ≤ 1) ∧
    (ShV (mdlB.nodes.getD 0 0) ((train_pc_generative mdlB inpB 1 junk).2.memory) ∧
    (∀ l < mdlB.n_layers - 1, ShM (mdlB.nodes.getD (l + 1) 0) (mdlB.nodes.getD l 0)
      ((train_pc_generative mdlB inpB 1 junk).2.weights.getD l junk)) ∧
    (mdlB.use_bias = true → ∀ l < mdlB.n_layers - 1, ShV (mdlB.nodes.getD (l + 1) 0)
      ((train_pc_generative mdlB inpB 1 junk).2.biases.getD l junk)) ∧
    (mdlB.variant = Variant.hybrid → ∃ G,
      (train_pc_generative mdlB inpB 1 junk).2.Wr = some (Tensor.mat G) ∧
      IsMat (mdlB.nodes.getD 0 0) (mdlB.nodes.getD 0 0) G)) :=
  ⟨⟨by decide, by decide, by decide, by decide⟩,
    claim_C5 mdlB inpB junk 1 1 (by decide) (by decide) (by decide) (by decide)⟩

/-- Counterexample to C1 as stated: on the model `mdlA`
(`nodes = [2,1]`) with a batch of size `B = 2`, after `set_nodes` the
top value node `val_nodes[0]` is the unbatched memory vector of shape
`(2,)`, not a tensor of shape `(B, nodes[0]) = (2, 2)`. -/
theorem claim_C1_counterexample :
    ¬ ShM 2 2 ((set_nodes mdlA inpA).val_nodes.getD 0 junk) := by decide

/-- C1 (amended): after `set_nodes`, `val_nodes[L-1]` is the input
batch and `errs[L-1]` has shape `(B, nodes[L-1])`; but for every
`l < L-1` the buffers are unbatched: `val_nodes[0]` is the memory
vector itself (not broadcast to the batch), and `val_nodes[l]` and
`errs[l]` are vectors of length `nodes[l]`.  The batch dimension
appears at those layers only later, during relaxation. -/
theorem claim_C1 (M : MultilayerPCN) (inp : Tensor) (B : ℕ)
    (hM : WFModel M) (hB : 0 < B)
    (hinp : ShM B (M.nodes.getD (M.n_layers - 1) 0) inp) :
    (set_nodes M inp).val_nodes.getD 0 junk = Tensor.vec M.memory ∧
    (set_nodes M inp).val_nodes.getD (M.n_layers - 1) junk = inp ∧
    (∀ l < M.n_layers - 1,
      ShV (M.nodes.getD l 0) ((set_nodes M inp).val_nodes.getD l junk) ∧
      ShV (M.nodes.getD l 0) ((set_nodes M inp).errs.getD l junk)) ∧
    ShM B (M.nodes.getD (M.n_layers - 1) 0)
      ((set_nodes M inp).errs.getD (M.n_layers - 1) junk) := by
  obtain ⟨hvlen, helen, hsh⟩ := set_nodes_mixed hM hB hinp
  have hL2 : 2 ≤ M.n_layers := hM.1
  refine ⟨?_, set_nodes_val_getD_last M inp, ?_, ?_⟩
  · rw [set_nodes_val_getD_lt M inp (by omega)]
    rfl
  · intro l hl
    have h := hsh l (by omega)
    rwa [if_pos hl] at h
  · have h := hsh (M.n_layers - 1) (by omega)
    rw [if_neg (by omega)] at h
    exact h.2

/-- Witness for C1: the amended claim applied to `mdlA` with the
two-element batch `inpA`. -/
theorem claim_C1_witness :
    (WFModel mdlA ∧ 0 < 2 ∧ ShM 2 (mdlA.nodes.getD (mdlA.n_layers - 1) 0) inpA) ∧
    ((set_nodes mdlA inpA).val_nodes.getD 0 junk = Tensor.vec mdlA.memory ∧
    (set_nodes mdlA inpA).val_nodes.getD (mdlA.n_layers - 1) junk = inpA ∧
    (∀ l < mdlA.n_layers - 1,
      ShV (mdlA.nodes.getD l 0) ((set_nodes mdlA inpA).val_nodes.getD l junk) ∧
      ShV (mdlA.nodes.getD l 0) ((set_nodes mdlA inpA).errs.getD l junk)) ∧
    ShM 2 (mdlA.nodes.getD (mdlA.n_layers - 1) 0)
      ((set_nodes mdlA inpA).errs.getD (mdlA.n_layers - 1) junk)) :=
  ⟨⟨by decide, by decide, by decide⟩,
    claim_C1 mdlA inpA 2 (by decide) (by decide) (by decide)⟩

/-! ## Frozen sensory layer under an all-zero mask (C8) -/

theorem zipWith_add_zero : ∀ (v w : List ℚ), v.length = w.length → (∀ x ∈ w, x = 0) →
    List.zipWith (· + ·) v w = v := by
  intro v
  induction v with
  | nil => intro w _ _; rfl
  | cons a t ih =>
      intro w hlen hz
      cases w with
      | nil => simp at hlen
      | cons b u =>
          rw [List.zipWith_cons_cons, hz b (by simp), add_zero]
          rw [ih u (by simpa using hlen) (fun x hx => hz x (by simp [hx]))]

theorem matAdd_zero {n : ℕ} : ∀ (V Z : List (List ℚ)), V.length = Z.length →
    (∀ r ∈ V, r.length = n) → (∀ r ∈ Z, r.length = n) →
    (∀ r ∈ Z, ∀ x ∈ r, x = 0) →
    List.zipWith (List.zipWith (· + ·)) V Z = V := by
  intro V
  induction V with
  | nil => intro Z _ _ _ _; rfl
  | cons r t ih =>
      intro Z hlen hV hZ hz
      cases Z with
      | nil => simp at hlen
      | cons rz tz =>
          rw [List.zipWith_cons_cons]
          rw [zipWith_add_zero r rz
            (by rw [hV r (by simp), hZ rz (by simp)]) (hz rz (by simp))]
          rw [ih tz (by simpa using hlen) (fun x hx => hV x (by simp [hx]))
            (fun x hx => hZ x (by simp [hx])) (fun x hx => hz x (by simp [hx]))]

theorem ewAdd_mat_zero {B n : ℕ} {V : List (List ℚ)} {t : Tensor} (hV : IsMat B n V)
    (ht : ShM B n t) (hz : IsZeroT t) : ewAdd (Tensor.mat V) t = Tensor.mat V := by
  obtain ⟨Z, rfl, hZ⟩ := ht
  show Tensor.mat (List.zipWith (List.zipWith (· + ·)) V Z) = _
  rw [matAdd_zero V Z (by rw [hV.1, hZ.1]) hV.2 hZ.2 hz]

theorem update_val_nodes_last_fixed {M : MultilayerPCN} {B j : ℕ} (hM : WFModel M)
    (hB : 0 < B) {mask : Tensor}
    (hmask : ShM B (M.nodes.getD (M.n_layers - 1) 0) mask) (hmz : IsZeroT mask)
    {s : PCState} (hmix : MixedState M B j s) (hj : j ≤ M.n_layers - 1) :
    (update_val_nodes M mask true s).val_nodes.getD (M.n_layers - 1) junk =
      s.val_nodes.getD (M.n_layers - 1) junk := by
  obtain ⟨hvlen, helen, hsh⟩ := hmix
  have hL2 : 2 ≤ M.n_layers := hM.1
  have hlast : M.n_layers - 1 < M.n_layers := by omega
  show ((List.range M.n_layers).map _).getD (M.n_layers - 1) junk = _
  rw [getD_map_range _ _ hlast]
  rw [if_neg (lt_irrefl _), if_pos rfl]
  have hvs := hsh (M.n_layers - 1) hlast
  rw [if_neg (by omega)] at hvs
  obtain ⟨V, hV, hVm⟩ := hvs.1
  obtain ⟨E, hE, hEm⟩ := hvs.2
  rw [hV, hE]
  have ht : ShM B (M.nodes.getD (M.n_layers - 1) 0)
      (tscale M.Dt (ewMul (tneg (Tensor.mat E)) mask)) := by
    apply ShM_tmap
    exact ShM_ewise_MM _ (ShM_tmap _ ⟨E, rfl, hEm⟩) hmask
  have htz : IsZeroT (tscale M.Dt (ewMul (tneg (Tensor.mat E)) mask)) := by
    apply IsZeroT_tmap (by norm_num)
    exact IsZeroT_ewise_right (fun x => mul_zero x) hmz _
  exact ewAdd_mat_zero hVm ht htz

/-- C8: with an all-zero `update_mask`, `test_pc_generative` (which
relaxes with `recon=True`) returns sensory-layer value nodes exactly
equal to the original corrupted input, for every iteration count and
every well-formed model: the fully frozen sensory layer never moves. -/
theorem claim_C8 (M : MultilayerPCN) (inp mask : Tensor) (n_iters B : ℕ)
    (hM : WFModel M) (hB : 0 < B)
    (hinp : ShM B (M.nodes.getD (M.n_layers - 1) 0) inp)
    (hmask : ShM B (M.nodes.getD (M.n_layers - 1) 0) mask)
    (hmz : IsZeroT mask) :
    test_pc_generative M inp n_iters mask true = inp := by
  have key : ∀ (k j : ℕ) (s : PCState), MixedState M B j s → j ≤ M.n_layers - 1 →
      s.val_nodes.getD (M.n_layers - 1) junk = inp →
      (relaxSteps M mask true k s).val_nodes.getD (M.n_layers - 1) junk = inp := by
    intro k
    induction k with
    | zero => intro j s _ _ hfix; exact hfix
    | succ n ih =>
        intro j s hmix hj hfix
        show (relaxSteps M mask true n
          (update_val_nodes M mask true s)).val_nodes.getD (M.n_layers - 1) junk = inp
        refine ih (j - 1) (update_val_nodes M mask true s)
          (update_val_nodes_mixed hM hB mask true (fun _ => Or.inr hmask) ⟨hmix.1, hmix.2.1, hmix.2.2⟩ hj)
          (by omega) ?_
        rw [update_val_nodes_last_fixed hM hB hmask hmz hmix hj]
        exact hfix
  show (relaxSteps M mask true n_iters (set_nodes M inp)).val_nodes.getD
    (M.n_layers - 1) junk = inp
  exact key n_iters (M.n_layers - 1) _ (set_nodes_mixed hM hB hinp) (le_refl _)
    (set_nodes_val_getD_last M inp)

/-- Witness for C8: the frozen-sensory-layer property evaluated on the
concrete model `mdlA`, batch `inpA`, the all-zero mask (which is `inpA`
itself), and one relaxation step. -/
theorem claim_C8_witness :
    (WFModel mdlA ∧ 0 < 2 ∧ ShM 2 (mdlA.nodes.getD (mdlA.n_layers - 1) 0) inpA ∧
      IsZeroT inpA) ∧
    test_pc_generative mdlA inpA 1 inpA true = inpA :=
  ⟨⟨by decide, by decide, by decide, by decide⟩,
    claim_C8 mdlA inpA inpA 1 2 (by decide) (by decide) (by decide) (by decide) (by decide)⟩
